import Mathlib

/-!
Verification development for the Ninuki engine (CMPUT 455 assignments).

The development shallowly embeds:
* `capture_stones` / `genmove_cmd` of `src/assignment1/gtp_connection.py`,
* the `A4SubmissionPlayer` solver (`get_move`, `alpha_beta`, `solve_board`,
  `rule`) of `src/assignment4/team7/Ninuki.py`,
* the `SimulationPlayer` (`genmove`, `simulate`) of `src/assignment3/Ninuki.py`.

The board module (`board.py`, `board_base.py`, `board_util.py`) is not part of
the available sources; where its operations are needed they are modelled from
the specification (each such definition carries a `Modelled from the spec:`
doc comment).  Machine integers of Python are unbounded, so `Nat`/`Int` model
them exactly; Python lists become `List`; in-place array mutation becomes
functional update of a total cell function.
-/

namespace Ninuki

/-- Color codes of `board_base` (modelled from the spec: `board_base.py` is
absent from `src/`; the codes are pinned down by `gtp_connection.color_to_int`
together with the literal comparisons `opponent_color == 1` / `== 2` in
`genmove_cmd`). -/
def EMPTY : Nat := 0

/-- Black's color code (see `EMPTY`). -/
def BLACK : Nat := 1

/-- White's color code (see `EMPTY`). -/
def WHITE : Nat := 2

/-- The border-sentinel color code (see `EMPTY`). -/
def BORDER : Nat := 3

/-- Modelled from the spec: `opponent` of `board_base` swaps Black and White
(`currentPlayer` always equals the side who has NOT just moved, spec §3); on
the two playing colors `3 - c` is the swap. -/
def opponent (c : Nat) : Nat := 3 - c

/-- A dynamically-typed Python value as far as the engine compares them:
an integer or a string. -/
inductive PyVal where
  | int (n : Nat)
  | str (s : String)
deriving DecidableEq

/-- Python `==` on `PyVal`: values of different types are never equal
(CPython falls back to identity/False for `int == str`). -/
def pyEq : PyVal → PyVal → Bool
  | .int a, .int b => a == b
  | .str a, .str b => a == b
  | _, _ => false

/-- Python `==` between a `bool` and an `int` (`True == 1`, `False == 0`):
used to embed the test `self._is_on_board(end1) == BORDER` of
`capture_stones` exactly as written. -/
def pyBoolEqNat (b : Bool) (n : Nat) : Bool := (if b then 1 else 0) == n

/-! ## The connection-level board of assignment 1

`capture_stones` reads `self.board.get_color`, `self.board.NS`,
`self.board.maxpoint` and writes `self.board.board[i] = EMPTY`.  Only those
pieces of `GoBoard` are needed; the cell array is modelled as a total
function on `ℤ` (every read the code performs is guarded by
`_is_on_board`). -/

/-- The slice of `GoBoard` state used by `capture_stones` in
`src/assignment1/gtp_connection.py`. -/
structure A1Board where
  NS : ℤ
  maxpoint : ℤ
  cells : ℤ → Nat

/-- `GtpConnection._is_on_board`: `0 <= point < self.board.maxpoint`. -/
def A1Board.isOnBoard (b : A1Board) (p : ℤ) : Bool :=
  decide (0 ≤ p) && decide (p < b.maxpoint)

/-- Modelled from the spec: `GoBoard.get_color` (absent from `src/`) reads the
1-D cell array at the given index (spec §3, `grid`). -/
def A1Board.getColor (b : A1Board) (p : ℤ) : Nat := b.cells p

/-- `self.board.board[p] = EMPTY`: functional update of the cell array. -/
def A1Board.setEmpty (b : A1Board) (p : ℤ) : A1Board :=
  { b with cells := fun q => if q = p then EMPTY else b.cells q }

/-- The direction list of `capture_stones`, in source order:
`[1, -1, NS, -NS, NS + 1, -NS + 1, NS - 1, -NS - 1]`. -/
def a1directions (NS : ℤ) : List ℤ :=
  [1, -1, NS, -NS, NS + 1, -NS + 1, NS - 1, -NS - 1]

/-- One iteration of the `for direction in directions` loop of
`capture_stones`.  The state is the current board together with the
`captured_stones` list (the source stores formatted coordinate strings and
uses only the list's length; we record the captured points themselves). -/
def captureStep (point : ℤ) (color : Nat) (st : A1Board × List ℤ) (d : ℤ) :
    A1Board × List ℤ :=
  let b := st.1
  let neighbor1 := point + d
  let neighbor2 := neighbor1 + d
  if b.isOnBoard neighbor1 && b.isOnBoard neighbor2 &&
      (b.getColor neighbor1 == opponent color) &&
      (b.getColor neighbor2 == opponent color) then
    let end1 := neighbor1 - d
    let end2 := neighbor2 + d
    if b.isOnBoard end1 && b.isOnBoard end2 &&
        ((b.getColor end1 == color) || pyBoolEqNat (b.isOnBoard end1) BORDER) &&
        ((b.getColor end2 == color) || pyBoolEqNat (b.isOnBoard end2) BORDER) then
      ((b.setEmpty neighbor1).setEmpty neighbor2, st.2 ++ [neighbor1, neighbor2])
    else st
  else st

/-- `GtpConnection.capture_stones(point, color)`: the capture-resolution pass
over the eight directions, returning the updated board and the list of
captured points. -/
def captureStones (b : A1Board) (point : ℤ) (color : Nat) : A1Board × List ℤ :=
  (a1directions b.NS).foldl (captureStep point color) (b, [])

/-- The trailing score update of `capture_stones`:
`self.black_score += len(captured_stones)` when `color == BLACK`, the white
tally when `color == WHITE`.  Input and output are the
`(black_score, white_score)` pair. -/
def captureScoreUpdate (black_score white_score : Nat) (color : Nat)
    (ncap : Nat) : Nat × Nat :=
  if color = BLACK then (black_score + ncap, white_score)
  else if color = WHITE then (black_score, white_score + ncap)
  else (black_score, white_score)

/-- The capture condition of `capture_stones` for one direction, read off a
fixed board: both cells beyond `point` hold the opponent's color, all four
probed cells are on the array, and the far cell `point + 3·d` holds the
mover's color — or the (dead, always-false) comparison of the boolean
`_is_on_board` result with `BORDER` succeeds. -/
def capCond (b : A1Board) (point : ℤ) (color : Nat) (d : ℤ) : Bool :=
  let neighbor1 := point + d
  let neighbor2 := neighbor1 + d
  let end1 := neighbor1 - d
  let end2 := neighbor2 + d
  b.isOnBoard neighbor1 && b.isOnBoard neighbor2 &&
    (b.getColor neighbor1 == opponent color) &&
    (b.getColor neighbor2 == opponent color) &&
    (b.isOnBoard end1 && b.isOnBoard end2 &&
      ((b.getColor end1 == color) || pyBoolEqNat (b.isOnBoard end1) BORDER) &&
      ((b.getColor end2 == color) || pyBoolEqNat (b.isOnBoard end2) BORDER))

/-- The points emptied by the directions of `ds` whose capture condition
holds on the original board. -/
def capturedCells (b : A1Board) (point : ℤ) (color : Nat) (ds : List ℤ) :
    List ℤ :=
  (ds.filter (capCond b point color)).flatMap (fun d => [point + d, point + d + d])

/-- The number of cells of `orig` that the pass producing `cur` flipped to
`EMPTY`: cells in `[0, maxpoint)` that were not `EMPTY` in `orig` and are
`EMPTY` in `cur`. -/
def flippedBy (orig cur : A1Board) : Nat :=
  (List.range orig.maxpoint.toNat).countP
    (fun i : ℕ => !(orig.cells (i : ℤ) == EMPTY) && (cur.cells (i : ℤ) == EMPTY))

/-- The demonstration board of assignment-1 shape for a size-3 playable area
(`NS = 4`, `maxpoint = 3*3 + 3*(3+1) + 1 = 22`): White stones at points 5 and
6 (row 1, columns 1 and 2), a Black stone just played at point 7 (row 1,
column 3), all other playable points empty, the surrounding ring `BORDER`. -/
def demoA1 : A1Board :=
  { NS := 4
    maxpoint := 22
    cells := fun p =>
      if p = 5 ∨ p = 6 then WHITE
      else if p = 7 then BLACK
      else if p = 9 ∨ p = 10 ∨ p = 11 ∨ p = 13 ∨ p = 14 ∨ p = 15 then EMPTY
      else BORDER }

example : (captureStones demoA1 7 BLACK).2.length = 0 := by decide
example : (captureStones demoA1 7 BLACK).1.cells 6 = WHITE := by decide

/-! ### Counting helpers for capture conservation -/

theorem countP_flip_one {l : List ℕ} (hl : l.Nodup) {a : ℕ} (ha : a ∈ l)
    {P P' : ℕ → Bool} (hPa : P a = false) (hP'a : P' a = true)
    (hagree : ∀ i, i ≠ a → P' i = P i) :
    l.countP P' = l.countP P + 1 := by
  induction l with
  | nil => cases ha
  | cons x t ih =>
    by_cases hxa : x = a
    · subst hxa
      have hta : x ∉ t := (List.nodup_cons.mp hl).1
      have ht : t.countP P' = t.countP P := by
        apply List.countP_congr
        intro i hi
        rw [hagree i (fun h => hta (h ▸ hi))]
      simp [List.countP_cons, hPa, hP'a, ht]
    · have hat : a ∈ t := by
        rcases List.mem_cons.mp ha with h | h
        · exact absurd h.symm hxa
        · exact h
      have ht := ih (List.nodup_cons.mp hl).2 hat
      simp [List.countP_cons, hagree x hxa, ht]
      omega

theorem flippedBy_setEmpty (b cur : A1Board) (x : ℤ)
    (h0 : 0 ≤ x) (hx : x < b.maxpoint)
    (hcur : cur.cells x ≠ EMPTY) (horig : b.cells x ≠ EMPTY) :
    flippedBy b (cur.setEmpty x) = flippedBy b cur + 1 := by
  unfold flippedBy
  have hmem : x.toNat ∈ List.range b.maxpoint.toNat := List.mem_range.mpr (by omega)
  have hxx : ((x.toNat : ℤ)) = x := Int.toNat_of_nonneg h0
  apply countP_flip_one (List.nodup_range _) hmem
  · simp [hxx, hcur]
  · simp [A1Board.setEmpty, hxx, horig]
  · intro i hi
    have hne : ((i : ℤ)) ≠ x := by
      intro h
      apply hi
      omega
    simp [A1Board.setEmpty, hne]

/-- `opponent` of a playing color is a stone color, never `EMPTY`. -/
theorem opponent_ne_empty {c : Nat} (hc : c = BLACK ∨ c = WHITE) :
    opponent c ≠ EMPTY := by
  rcases hc with rfl | rfl <;> decide

/-- The main invariant of the capture pass: the pass only writes `EMPTY`, the
recorded captured points are pairwise distinct on-board cells now empty, and
the number of cells flipped to `EMPTY` equals the length of the captured
list. -/
theorem captureFold_inv (b : A1Board) (point : ℤ) (color : Nat)
    (hc : color = BLACK ∨ color = WHITE) :
    ∀ (ds : List ℤ) (st : A1Board × List ℤ),
      (∀ d ∈ ds, d ≠ 0) →
      st.1.NS = b.NS → st.1.maxpoint = b.maxpoint →
      (∀ q, st.1.cells q = b.cells q ∨ st.1.cells q = EMPTY) →
      (∀ q ∈ st.2, st.1.cells q = EMPTY) →
      st.2.Nodup →
      flippedBy b st.1 = st.2.length →
      (ds.foldl (captureStep point color) st).1.NS = b.NS ∧
      (ds.foldl (captureStep point color) st).1.maxpoint = b.maxpoint ∧
      (∀ q, (ds.foldl (captureStep point color) st).1.cells q = b.cells q ∨
        (ds.foldl (captureStep point color) st).1.cells q = EMPTY) ∧
      (∀ q ∈ (ds.foldl (captureStep point color) st).2,
        (ds.foldl (captureStep point color) st).1.cells q = EMPTY) ∧
      (ds.foldl (captureStep point color) st).2.Nodup ∧
      flippedBy b (ds.foldl (captureStep point color) st).1 =
        (ds.foldl (captureStep point color) st).2.length ∧
      (ds.foldl (captureStep point color) st).2.length % 2 = st.2.length % 2 := by
  intro ds
  induction ds with
  | nil =>
    intro st _ h1 h2 h3 h4 h5 h6
    exact ⟨h1, h2, h3, h4, h5, h6, rfl⟩
  | cons d rest ih =>
    intro st hds h1 h2 h3 h4 h5 h6
    have hd0 : d ≠ 0 := hds d (List.mem_cons_self d rest)
    have hrest : ∀ e ∈ rest, e ≠ 0 := fun e he => hds e (List.mem_cons_of_mem d he)
    rw [List.foldl_cons]
    by_cases hcond :
      (st.1.isOnBoard (point + d) && st.1.isOnBoard (point + d + d) &&
        (st.1.getColor (point + d) == opponent color) &&
        (st.1.getColor (point + d + d) == opponent color)) = true ∧
      (st.1.isOnBoard (point + d - d) && st.1.isOnBoard (point + d + d + d) &&
        ((st.1.getColor (point + d - d) == color) ||
          pyBoolEqNat (st.1.isOnBoard (point + d - d)) BORDER) &&
        ((st.1.getColor (point + d + d + d) == color) ||
          pyBoolEqNat (st.1.isOnBoard (point + d + d + d)) BORDER)) = true
    · -- the direction captures
      obtain ⟨hc1, hc2⟩ := hcond
      have hstep : captureStep point color st d =
          (((st.1.setEmpty (point + d)).setEmpty (point + d + d)),
            st.2 ++ [point + d, point + d + d]) := by
        simp only [captureStep, hc1, hc2, if_true]
      rw [hstep]
      -- facts extracted from the condition
      simp only [Bool.and_eq_true, beq_iff_eq, A1Board.isOnBoard,
        A1Board.getColor, decide_eq_true_eq] at hc1
      obtain ⟨⟨⟨⟨hn1lo, hn1hi⟩, hn2lo, hn2hi⟩, hn1col⟩, hn2col⟩ := hc1
      have hne12 : point + d ≠ point + d + d := by omega
      have hoppne : opponent color ≠ EMPTY := opponent_ne_empty hc
      have hb1 : b.cells (point + d) = opponent color := by
        rcases h3 (point + d) with h | h
        · rw [← h, hn1col]
        · rw [hn1col] at h; exact absurd h hoppne
      have hb2 : b.cells (point + d + d) = opponent color := by
        rcases h3 (point + d + d) with h | h
        · rw [← h, hn2col]
        · rw [hn2col] at h; exact absurd h hoppne
      have hflip1 : flippedBy b (st.1.setEmpty (point + d)) = flippedBy b st.1 + 1 := by
        apply flippedBy_setEmpty b st.1 (point + d) hn1lo (by omega)
        · rw [hn1col]; exact hoppne
        · rw [hb1]; exact hoppne
      have hflip2 : flippedBy b ((st.1.setEmpty (point + d)).setEmpty (point + d + d)) =
          flippedBy b (st.1.setEmpty (point + d)) + 1 := by
        apply flippedBy_setEmpty b _ (point + d + d) hn2lo (by omega)
        · simp [A1Board.setEmpty, hne12.symm, hn2col, hoppne]
        · rw [hb2]; exact hoppne
      -- the invariant for the updated state
      have hg1 : ((st.1.setEmpty (point + d)).setEmpty (point + d + d)).NS = b.NS := by
        simp [A1Board.setEmpty, h1]
      have hg2 : ((st.1.setEmpty (point + d)).setEmpty (point + d + d)).maxpoint =
          b.maxpoint := by
        simp [A1Board.setEmpty, h2]
      have hg3 : ∀ q, ((st.1.setEmpty (point + d)).setEmpty (point + d + d)).cells q =
          b.cells q ∨
          ((st.1.setEmpty (point + d)).setEmpty (point + d + d)).cells q = EMPTY := by
        intro q
        simp only [A1Board.setEmpty]
        by_cases hq2 : q = point + d + d
        · simp [hq2]
        · by_cases hq1 : q = point + d
          · simp [hq1, hq2]
          · simpa [hq1, hq2] using h3 q
      have hg4 : ∀ q ∈ st.2 ++ [point + d, point + d + d],
          ((st.1.setEmpty (point + d)).setEmpty (point + d + d)).cells q = EMPTY := by
        intro q hq
        simp only [A1Board.setEmpty]
        by_cases hq2 : q = point + d + d
        · simp [hq2]
        · by_cases hq1 : q = point + d
          · simp [hq1, hq2]
          · rcases List.mem_append.mp hq with hq | hq
            · simpa [hq1, hq2] using h4 q hq
            · simp only [List.mem_cons, List.mem_singleton] at hq
              rcases hq with h | h | h
              · exact absurd h hq1
              · exact absurd h hq2
              · cases h
      have hg5 : (st.2 ++ [point + d, point + d + d]).Nodup := by
        have hn1old : point + d ∉ st.2 := by
          intro hmem
          have := h4 _ hmem
          rw [hn1col] at this
          exact hoppne this
        have hn2old : point + d + d ∉ st.2 := by
          intro hmem
          have := h4 _ hmem
          rw [hn2col] at this
          exact hoppne this
        rw [List.nodup_append]
        refine ⟨h5, by simp [hne12], ?_⟩
        intro q hq
        simp only [List.mem_cons, List.mem_singleton]
        rintro (rfl | rfl | h)
        · exact hn1old hq
        · exact hn2old hq
        · cases h
      have hg6 : flippedBy b ((st.1.setEmpty (point + d)).setEmpty (point + d + d)) =
          (st.2 ++ [point + d, point + d + d]).length := by
        rw [hflip2, hflip1, h6]
        simp
      obtain ⟨k1, k2, k3, k4, k5, k6, k7⟩ :=
        ih ((st.1.setEmpty (point + d)).setEmpty (point + d + d),
            st.2 ++ [point + d, point + d + d]) hrest hg1 hg2 hg3 hg4 hg5 hg6
      refine ⟨k1, k2, k3, k4, k5, k6, ?_⟩
      rw [k7]
      simp only [List.length_append, List.length_cons, List.length_nil]
      omega
    · -- the direction does not capture: the step is the identity
      have hstep : captureStep point color st d = st := by
        simp only [captureStep]
        by_cases hA :
          (st.1.isOnBoard (point + d) && st.1.isOnBoard (point + d + d) &&
            (st.1.getColor (point + d) == opponent color) &&
            (st.1.getColor (point + d + d) == opponent color)) = true
        · have hB : ¬ _ := fun hB => hcond ⟨hA, hB⟩
          simp only [hA, if_true, hB, if_false]
        · simp only [hA]
          simp
      rw [hstep]
      exact ih st hrest h1 h2 h3 h4 h5 h6

/-- All eight capture directions are nonzero once `2 ≤ NS`. -/
theorem a1directions_ne_zero {NS : ℤ} (h : 2 ≤ NS) :
    ∀ d ∈ a1directions NS, d ≠ 0 := by
  intro d hd
  simp only [a1directions, List.mem_cons, List.mem_singleton,
    List.not_mem_nil, or_false] at hd
  rcases hd with rfl | rfl | rfl | rfl | rfl | rfl | rfl | rfl <;> omega

/-- A board is flipped nowhere relative to itself. -/
theorem flippedBy_self (b : A1Board) : flippedBy b b = 0 := by
  unfold flippedBy
  rw [List.countP_eq_zero]
  intro i _
  cases h : b.cells (i : ℤ) == EMPTY <;> simp [h]

/-- Claim C7: the capture-resolution pass of `capture_stones` flips to
`EMPTY` exactly as many cells as it appends to `captured_stones`, that list
is duplicate-free (no point is counted or emptied twice across the eight
directions), its length is even (captures occur in same-direction pairs),
and the score update adds exactly that length to the mover's tally. -/
theorem capture_conservation (b : A1Board) (point : ℤ) (color : Nat)
    (bs ws : Nat) (hc : color = BLACK ∨ color = WHITE) (hNS : 2 ≤ b.NS) :
    flippedBy b (captureStones b point color).1 =
      (captureStones b point color).2.length ∧
    (captureStones b point color).2.Nodup ∧
    (captureStones b point color).2.length % 2 = 0 ∧
    (color = BLACK →
      captureScoreUpdate bs ws color (captureStones b point color).2.length =
        (bs + (captureStones b point color).2.length, ws)) ∧
    (color = WHITE →
      captureScoreUpdate bs ws color (captureStones b point color).2.length =
        (bs, ws + (captureStones b point color).2.length)) := by
  obtain ⟨k1, k2, k3, k4, k5, k6, k7⟩ :=
    captureFold_inv b point color hc (a1directions b.NS) (b, [])
      (a1directions_ne_zero hNS) rfl rfl (fun q => Or.inl rfl)
      (by intro q hq; cases hq) List.nodup_nil (flippedBy_self b)
  refine ⟨k6, k5, by simpa using k7, ?_, ?_⟩
  · intro h
    simp [captureScoreUpdate, h]
  · intro h
    simp [captureScoreUpdate, h, WHITE, BLACK]

/-- A size-4 demonstration board (`NS = 5`, `maxpoint = 4*4 + 3*5 + 1 = 32`):
Black at point 6 (row 1, col 1), White at 7 and 8, Black just played at 9
(row 1, col 4); the flanked White pair is captured leftwards. -/
def demoA1w : A1Board :=
  { NS := 5
    maxpoint := 32
    cells := fun p =>
      if p = 6 then BLACK
      else if p = 7 ∨ p = 8 then WHITE
      else if p = 9 then BLACK
      else if p = 11 ∨ p = 12 ∨ p = 13 ∨ p = 14 ∨ p = 16 ∨ p = 17 ∨ p = 18 ∨
          p = 19 ∨ p = 21 ∨ p = 22 ∨ p = 23 ∨ p = 24 then EMPTY
      else BORDER }

/-! ### Direction independence of the capture pass (`4 ≤ NS`) -/

/-- The dead border test of `capture_stones`: comparing the boolean result of
`_is_on_board` with `BORDER` (= 3) is always false (`True == 1`,
`False == 0`). -/
theorem pyBoolEqNat_BORDER (bb : Bool) : pyBoolEqNat bb BORDER = false := by
  cases bb <;> decide

/-- For `4 ≤ NS`, two distinct capture directions never collide on the cells
they probe or write: `d ≠ e + e` and `d + d ≠ e`. -/
theorem a1dirs_sep {NS : ℤ} (h : 4 ≤ NS) {d e : ℤ}
    (hd : d ∈ a1directions NS) (he : e ∈ a1directions NS) (hne : d ≠ e) :
    d ≠ e + e ∧ d + d ≠ e := by
  simp only [a1directions, List.mem_cons, List.mem_singleton,
    List.not_mem_nil, or_false] at hd he
  rcases hd with rfl | rfl | rfl | rfl | rfl | rfl | rfl | rfl <;>
    rcases he with rfl | rfl | rfl | rfl | rfl | rfl | rfl | rfl <;> omega

/-- The direction list is duplicate-free once `4 ≤ NS`. -/
theorem a1directions_nodup {NS : ℤ} (h : 4 ≤ NS) : (a1directions NS).Nodup := by
  simp only [a1directions, List.nodup_cons, List.mem_cons, List.mem_singleton,
    List.not_mem_nil, List.nodup_nil, or_false, and_true, not_or]
  norm_num
  omega

/-- Cells recorded in `capturedCells` held the opponent's color on the
original board. -/
theorem capturedCells_orig {b : A1Board} {point : ℤ} {color : Nat}
    {ds : List ℤ} {q : ℤ} (hq : q ∈ capturedCells b point color ds) :
    b.cells q = opponent color := by
  simp only [capturedCells, List.mem_flatMap, List.mem_filter] at hq
  obtain ⟨d, ⟨_, hcond⟩, hqd⟩ := hq
  simp only [capCond, Bool.and_eq_true, beq_iff_eq, A1Board.getColor] at hcond
  obtain ⟨⟨⟨⟨_, _⟩, hn1⟩, hn2⟩, _⟩ := hcond
  simp only [List.mem_cons, List.mem_singleton, List.not_mem_nil,
    or_false] at hqd
  rcases hqd with rfl | rfl
  · exact hn1
  · exact hn2

/-- A playing color is a nonempty stone color distinct from its opponent. -/
theorem playing_color_facts {c : Nat} (hc : c = BLACK ∨ c = WHITE) :
    c ≠ EMPTY ∧ opponent c ≠ EMPTY ∧ c ≠ opponent c := by
  rcases hc with rfl | rfl <;> refine ⟨by decide, by decide, by decide⟩

/-- On the intermediate board of the capture fold (exactly the cells of
`capturedCells pre` have been emptied), the loop's capture test for a
direction `d` not yet processed evaluates exactly as on the original
board. -/
theorem capCond_stable (b : A1Board) (point : ℤ) (color : Nat)
    (hc : color = BLACK ∨ color = WHITE) (hNS : 4 ≤ b.NS)
    {pre : List ℤ} (hpre : ∀ e ∈ pre, e ∈ a1directions b.NS)
    {d : ℤ} (hd : d ∈ a1directions b.NS) (hdpre : d ∉ pre)
    (cur : A1Board) (hmax : cur.maxpoint = b.maxpoint)
    (hcells : ∀ q, cur.cells q =
      if q ∈ capturedCells b point color pre then EMPTY else b.cells q) :
    capCond cur point color d = capCond b point color d := by
  obtain ⟨hcE, hoE, hcop⟩ := playing_color_facts hc
  have memC : ∀ {q : ℤ}, q ∈ capturedCells b point color pre →
      ∃ e ∈ pre, q = point + e ∨ q = point + e + e := by
    intro q hq
    simp only [capturedCells, List.mem_flatMap, List.mem_filter] at hq
    obtain ⟨e, ⟨he, _⟩, hqe⟩ := hq
    simp only [List.mem_cons, List.mem_singleton, List.not_mem_nil,
      or_false] at hqe
    exact ⟨e, he, hqe⟩
  have hn1C : point + d ∉ capturedCells b point color pre := by
    intro hq
    obtain ⟨e, he, heq⟩ := memC hq
    have hne : d ≠ e := fun h => hdpre (h ▸ he)
    obtain ⟨hsep1, _⟩ := a1dirs_sep hNS hd (hpre e he) hne
    rcases heq with h | h <;> omega
  have hn2C : point + d + d ∉ capturedCells b point color pre := by
    intro hq
    obtain ⟨e, he, heq⟩ := memC hq
    have hne : d ≠ e := fun h => hdpre (h ▸ he)
    obtain ⟨_, hsep2⟩ := a1dirs_sep hNS hd (hpre e he) hne
    rcases heq with h | h <;> omega
  have he1C : point + d - d ∉ capturedCells b point color pre := by
    intro hq
    obtain ⟨e, he, heq⟩ := memC hq
    have he0 : e ≠ 0 := a1directions_ne_zero (by omega) e (hpre e he)
    rcases heq with h | h <;> omega
  have hcell1 : cur.cells (point + d) = b.cells (point + d) := by
    rw [hcells, if_neg hn1C]
  have hcell2 : cur.cells (point + d + d) = b.cells (point + d + d) := by
    rw [hcells, if_neg hn2C]
  have hcell3 : cur.cells (point + d - d) = b.cells (point + d - d) := by
    rw [hcells, if_neg he1C]
  have hboard : ∀ x : ℤ, cur.isOnBoard x = b.isOnBoard x := by
    intro x
    simp [A1Board.isOnBoard, hmax]
  have hH : (cur.cells (point + d + d + d) == color) =
      (b.cells (point + d + d + d) == color) := by
    by_cases he2 : point + d + d + d ∈ capturedCells b point color pre
    · have horig := capturedCells_orig he2
      rw [hcells, if_pos he2, horig]
      have h1 : (EMPTY == color) = false := by
        simp [BEq.beq]
        omega
      have h2 : (opponent color == color) = false := by
        simp [BEq.beq]
        intro h
        exact hcop h.symm
      rw [h1, h2]
    · rw [hcells, if_neg he2]
  simp only [capCond, A1Board.getColor, hboard, hcell1, hcell2, hcell3, hH]

/-- One loop iteration of `capture_stones`, rephrased through the combined
capture condition `capCond` evaluated on the iteration's own board. -/
theorem captureStep_eq_cond (point : ℤ) (color : Nat)
    (st : A1Board × List ℤ) (d : ℤ) :
    captureStep point color st d =
      if capCond st.1 point color d then
        ((st.1.setEmpty (point + d)).setEmpty (point + d + d),
          st.2 ++ [point + d, point + d + d])
      else st := by
  simp only [captureStep, capCond]
  by_cases h1 : (st.1.isOnBoard (point + d) && st.1.isOnBoard (point + d + d) &&
      (st.1.getColor (point + d) == opponent color) &&
      (st.1.getColor (point + d + d) == opponent color)) = true
  · by_cases h2 : (st.1.isOnBoard (point + d - d) &&
        st.1.isOnBoard (point + d + d + d) &&
        ((st.1.getColor (point + d - d) == color) ||
          pyBoolEqNat (st.1.isOnBoard (point + d - d)) BORDER) &&
        ((st.1.getColor (point + d + d + d) == color) ||
          pyBoolEqNat (st.1.isOnBoard (point + d + d + d)) BORDER)) = true
    · simp [h1, h2]
    · simp [h1, Bool.eq_false_iff.mpr h2]
  · simp [Bool.eq_false_iff.mpr h1]

/-- The capture fold with the prefix `pre` already processed: the board holds
exactly the original with `capturedCells pre` emptied, and after the whole
list is processed it holds the original with `capturedCells` of all eight
directions emptied, the captured list's length being twice the number of
directions whose capture condition holds on the original board. -/
theorem captureFold_indep (b : A1Board) (point : ℤ) (color : Nat)
    (hc : color = BLACK ∨ color = WHITE) (hNS : 4 ≤ b.NS) :
    ∀ (rest pre : List ℤ) (st : A1Board × List ℤ),
      a1directions b.NS = pre ++ rest →
      st.1.NS = b.NS → st.1.maxpoint = b.maxpoint →
      (∀ q, st.1.cells q =
        if q ∈ capturedCells b point color pre then EMPTY else b.cells q) →
      st.2.length = 2 * (pre.filter (capCond b point color)).length →
      (∀ q, (rest.foldl (captureStep point color) st).1.cells q =
        if q ∈ capturedCells b point color (a1directions b.NS) then EMPTY
        else b.cells q) ∧
      (rest.foldl (captureStep point color) st).2.length =
        2 * ((a1directions b.NS).filter (capCond b point color)).length := by
  intro rest
  induction rest with
  | nil =>
    intro pre st heq h1 h2 h3 h4
    rw [List.append_nil] at heq
    subst heq
    exact ⟨h3, h4⟩
  | cons d rest' ih =>
    intro pre st heq h1 h2 h3 h4
    have hnodup : (a1directions b.NS).Nodup := a1directions_nodup hNS
    have hdirs : d ∈ a1directions b.NS := by
      rw [heq]
      exact List.mem_append.mpr (Or.inr (List.mem_cons_self d rest'))
    have hpre : ∀ e ∈ pre, e ∈ a1directions b.NS := by
      intro e he
      rw [heq]
      exact List.mem_append.mpr (Or.inl he)
    have hdpre : d ∉ pre := by
      intro hmem
      rw [heq, List.nodup_append] at hnodup
      exact hnodup.2.2 hmem (List.mem_cons_self d rest')
    have hstable := capCond_stable b point color hc hNS hpre hdirs hdpre
      st.1 h2 h3
    rw [List.foldl_cons, captureStep_eq_cond, hstable]
    by_cases hcap : capCond b point color d = true
    · rw [if_pos hcap]
      have hCC : capturedCells b point color (pre ++ [d]) =
          capturedCells b point color pre ++ [point + d, point + d + d] := by
        simp [capturedCells, List.filter_append, hcap]
      have hd0 : d ≠ 0 := a1directions_ne_zero (by omega) d hdirs
      refine ih (pre ++ [d]) _ (by rw [heq]; simp) (by simp [A1Board.setEmpty, h1])
        (by simp [A1Board.setEmpty, h2]) ?_ ?_
      · intro q
        simp only [A1Board.setEmpty, hCC]
        by_cases hq2 : q = point + d + d
        · simp [hq2, List.mem_append]
        · by_cases hq1 : q = point + d
          · simp [hq1, hq2, List.mem_append]
          · have : (q ∈ capturedCells b point color pre ++
                [point + d, point + d + d]) ↔
                q ∈ capturedCells b point color pre := by
              simp only [List.mem_append, List.mem_cons, List.mem_singleton,
                List.not_mem_nil, or_false]
              tauto
            simp only [if_neg hq2, if_neg hq1, this]
            exact h3 q
      · have hfd : (List.filter (capCond b point color) [d]).length = 1 := by
          simp [hcap]
        simp only [List.length_append, List.filter_append, List.length_cons,
          List.length_nil, h4, hfd]
        omega
    · rw [if_neg hcap]
      have hCC : capturedCells b point color (pre ++ [d]) =
          capturedCells b point color pre := by
        simp [capturedCells, List.filter_append, hcap]
      refine ih (pre ++ [d]) st (by rw [heq]; simp) h1 h2 ?_ ?_
      · intro q
        rw [hCC]
        exact h3 q
      · have hfd : (List.filter (capCond b point color) [d]).length = 0 := by
          simp [hcap]
        simp only [List.filter_append, List.length_append, h4, hfd]
        omega

/-- Claim C2 counterexample: on `demoA1`, Black has just played at point 7
(its cell already holds `BLACK`); in direction `-1` the two cells beyond the
played point (6 and 5) both hold White, and the cell one step further (4) is
the border sentinel.  The claim demands that both White cells be set to
`EMPTY` with a capture-count delta of 2, but `capture_stones` captures
nothing: its border test compares the *boolean* `_is_on_board` result with
`BORDER` and is therefore never true. -/
theorem capture_border_counterexample :
    (demoA1.cells (7 + -1) = opponent BLACK ∧
      demoA1.cells (7 + -1 + -1) = opponent BLACK ∧
      demoA1.cells (7 + -1 + -1 + -1) = BORDER ∧
      demoA1.cells 7 = BLACK) ∧
    ¬((captureStones demoA1 7 BLACK).1.cells (7 + -1) = EMPTY ∧
      (captureStones demoA1 7 BLACK).1.cells (7 + -1 + -1) = EMPTY ∧
      (captureStones demoA1 7 BLACK).2.length = 2) := by
  decide

/-- Claim C2 (amended): for a board with `4 ≤ NS` and a playing color, a
direction `d` captures exactly when the code's capture condition holds on
the board as it stood after the stone was placed: both cells beyond the
played point hold the opponent, and the cell one step further holds the
*mover's own color* (the spec's border alternative is dead code — the
comparison `_is_on_board(end) == BORDER` is always false).  Both flanked
cells end up `EMPTY`, and the total capture delta is 2 for each direction
whose condition holds. -/
theorem capture_per_direction (b : A1Board) (point : ℤ) (color : Nat) (d : ℤ)
    (hc : color = BLACK ∨ color = WHITE) (hNS : 4 ≤ b.NS)
    (hd : d ∈ a1directions b.NS) (hcond : capCond b point color d = true) :
    (captureStones b point color).1.cells (point + d) = EMPTY ∧
    (captureStones b point color).1.cells (point + d + d) = EMPTY ∧
    (captureStones b point color).2.length =
      2 * ((a1directions b.NS).filter (capCond b point color)).length ∧
    b.cells (point + d + d + d) = color ∧
    (∀ bb : Bool, pyBoolEqNat bb BORDER = false) := by
  obtain ⟨hcells, hlen⟩ := captureFold_indep b point color hc hNS
    (a1directions b.NS) [] (b, []) (by simp) rfl rfl
    (by intro q; simp [capturedCells]) (by simp)
  have hmem1 : point + d ∈ capturedCells b point color (a1directions b.NS) := by
    simp only [capturedCells, List.mem_flatMap, List.mem_filter]
    exact ⟨d, ⟨hd, hcond⟩, by simp⟩
  have hmem2 : point + d + d ∈
      capturedCells b point color (a1directions b.NS) := by
    simp only [capturedCells, List.mem_flatMap, List.mem_filter]
    exact ⟨d, ⟨hd, hcond⟩, by simp⟩
  refine ⟨?_, ?_, ?_, ?_, pyBoolEqNat_BORDER⟩
  · rw [captureStones, hcells, if_pos hmem1]
  · rw [captureStones, hcells, if_pos hmem2]
  · rw [captureStones, hlen]
  · have h := hcond
    simp only [capCond, Bool.and_eq_true, Bool.or_eq_true, beq_iff_eq,
      A1Board.getColor, pyBoolEqNat_BORDER, Bool.false_eq_true, or_false] at h
    exact h.2.2

/-- Witness for `capture_per_direction` at a concrete capturing move:
on `demoA1w`, Black plays 9, capturing the White pair 8, 7 against the Black
stone at 6 (direction `-1`). -/
theorem capture_per_direction_witness :
    ((BLACK = BLACK ∨ BLACK = WHITE) ∧ (4 : ℤ) ≤ demoA1w.NS ∧
      (-1 : ℤ) ∈ a1directions demoA1w.NS ∧
      capCond demoA1w 9 BLACK (-1) = true) ∧
    ((captureStones demoA1w 9 BLACK).1.cells (9 + -1) = EMPTY ∧
      (captureStones demoA1w 9 BLACK).1.cells (9 + -1 + -1) = EMPTY ∧
      (captureStones demoA1w 9 BLACK).2.length =
        2 * ((a1directions demoA1w.NS).filter (capCond demoA1w 9 BLACK)).length ∧
      demoA1w.cells (9 + -1 + -1 + -1) = BLACK ∧
      (∀ bb : Bool, pyBoolEqNat bb BORDER = false)) :=
  ⟨⟨Or.inl rfl, by decide, by decide, by decide⟩,
    capture_per_direction demoA1w 9 BLACK (-1) (Or.inl rfl) (by decide)
      (by decide) (by decide)⟩

/-- Witness for `capture_conservation` at a concrete capturing move. -/
theorem capture_conservation_witness :
    ((BLACK = BLACK ∨ BLACK = WHITE) ∧ (2 : ℤ) ≤ demoA1w.NS) ∧
    (flippedBy demoA1w (captureStones demoA1w 9 BLACK).1 =
      (captureStones demoA1w 9 BLACK).2.length ∧
    (captureStones demoA1w 9 BLACK).2.Nodup ∧
    (captureStones demoA1w 9 BLACK).2.length % 2 = 0 ∧
    (BLACK = BLACK →
      captureScoreUpdate 0 0 BLACK (captureStones demoA1w 9 BLACK).2.length =
        (0 + (captureStones demoA1w 9 BLACK).2.length, 0)) ∧
    (BLACK = WHITE →
      captureScoreUpdate 0 0 BLACK (captureStones demoA1w 9 BLACK).2.length =
        (0, 0 + (captureStones demoA1w 9 BLACK).2.length))) :=
  ⟨⟨Or.inl rfl, by decide⟩,
    capture_conservation demoA1w 9 BLACK 0 0 (Or.inl rfl) (by decide)⟩

/-! ## `genmove_cmd` of assignment 1 -/

/-- The possible replies of `genmove_cmd`.  The `move` reply carries the
chosen point (the source formats it before responding); `silent` is the
fall-through path in which the command responds nothing (empty points exist
but none is legal). -/
inductive GenmoveResp where
  | resign
  | pass
  | move (p : ℤ)
  | silent
deriving DecidableEq

/-- `GtpConnection.genmove_cmd` for a color argument already converted by
`color_to_int`, with its collaborators as explicit inputs: `result` models
`self.board.result()` (a `GoBoard` method absent from `src/`),
`emptyPoints` models `self.board.get_empty_points()`, `isLegal` models
`self.board.is_legal`, and `choice` models `random.choice`.  The four win
checks run first, then the pass check, then legal-move generation. -/
def genmoveCmd (color : Nat) (black_score white_score : Nat) (result : String)
    (emptyPoints : List ℤ) (isLegal : ℤ → Nat → Bool)
    (choice : List ℤ → ℤ) : GenmoveResp :=
  let opponent_color := opponent color
  if opponent_color = 2 ∧ white_score ≥ 10 then .resign
  else if opponent_color = 1 ∧ black_score ≥ 10 then .resign
  else if opponent_color = 1 ∧ result = "black" then .resign
  else if opponent_color = 2 ∧ result = "white" then .resign
  else if emptyPoints.length = 0 then .pass
  else
    let legalMoves := emptyPoints.filter (fun p => isLegal p color)
    if legalMoves.length > 0 then .move (choice legalMoves) else .silent

/-- Claim C8: whenever the opponent of the requested color has reached the
capture threshold (its connection-level score is at least 10) or the board's
result already names the opponent as winner, `genmove_cmd` responds
"resign" — for every state of the empty points, the legality predicate and
the random choice, i.e. before any move generation takes place. -/
theorem genmove_resign_on_opponent_win (color : Nat) (bs ws : Nat)
    (result : String) (emptyPoints : List ℤ) (isLegal : ℤ → Nat → Bool)
    (choice : List ℤ → ℤ)
    (h : (color = BLACK ∧ (10 ≤ ws ∨ result = "white")) ∨
      (color = WHITE ∧ (10 ≤ bs ∨ result = "black"))) :
    genmoveCmd color bs ws result emptyPoints isLegal choice = .resign := by
  rcases h with ⟨rfl, h⟩ | ⟨rfl, h⟩
  · rcases h with h | h
    · simp [genmoveCmd, opponent, BLACK, h]
    · by_cases hws : 10 ≤ ws
      · simp [genmoveCmd, opponent, BLACK, hws]
      · simp [genmoveCmd, opponent, BLACK, hws, h]
  · rcases h with h | h
    · simp [genmoveCmd, opponent, WHITE, h]
    · by_cases hbs : 10 ≤ bs
      · simp [genmoveCmd, opponent, WHITE, hbs]
      · simp [genmoveCmd, opponent, WHITE, hbs, h]

/-- Witness for `genmove_resign_on_opponent_win`: White has 10 captures, so a
Black genmove resigns even though empty points remain. -/
theorem genmove_resign_on_opponent_win_witness :
    genmoveCmd BLACK 0 10 "unknown" [5, 6] (fun _ _ => true) (fun _ => 5) =
      .resign :=
  genmove_resign_on_opponent_win BLACK 0 10 "unknown" [5, 6]
    (fun _ _ => true) (fun _ => 5) (Or.inl ⟨rfl, Or.inl (by decide)⟩)

/-! ## The assignment-4 solver (`A4SubmissionPlayer`)

`alpha_beta` manipulates the board only through `is_terminal`,
`current_player`, `generate_legal_moves`, `play_move` and `undo`.  All of
these live in the board module, which is absent from `src/`; they are
therefore modelled from the spec as an abstract interface, and the solver is
embedded as a function of any implementation of that interface.  The
wall-clock is modelled by an oracle giving the outcome of each successive
deadline sample, and `random.shuffle` by an explicit list transformer. -/

/-- Modelled from the spec: the slice of the `GoBoard` interface used by
`alpha_beta` (spec §3, §4.1; `board.py` is absent from `src/`).
`isTerminal` returns the `(is_terminal, winner)` pair, the winner color
being `EMPTY` for a draw. -/
structure GameOps (S : Type) (M : Type) where
  isTerminal : S → Bool × Nat
  currentPlayer : S → Nat
  legalMoves : S → List M
  playMove : S → M → S
  undoMove : S → S

/-- The result of one `alpha_beta` call: the `(value, solved, timeout)`
triple the source returns, together with the solver state threaded through
`self` — the count of deadline samples taken so far, the current
`self.best_move`, and the (mutated, then restored) `self.board`. -/
structure ABOut (S : Type) (M : Type) where
  value : Int
  solved : Bool
  timedOut : Bool
  clk : Nat
  best : M
  board : S
deriving DecidableEq

/-- The `for move in moves` loop of `alpha_beta` (lines 68–92 of
`src/assignment4/team7/Ninuki.py`).  `child` is the recursive call at
`depth + 1`, taking the negated window, the child position, the clock and
the best move.  The loop plays each move, recurses, undoes, and then — in
source order — propagates a child timeout, accumulates `any_unsolved`,
raises `alpha` (remembering the move at the root), returns a solved win,
or returns `beta` on a cutoff; if the list is exhausted it returns `alpha`,
solved exactly when no explored child was unsolved. -/
def abGo {S M : Type} (G : GameOps S M)
    (child : Int → Int → S → Nat → M → ABOut S M)
    (depth : Nat) (beta : Int) :
    List M → Int → Bool → S → Nat → M → ABOut S M
  | [], alpha, anyUnsolved, s, clk, best =>
    ⟨alpha, !anyUnsolved, false, clk, best, s⟩
  | m :: ms, alpha, anyUnsolved, s, clk, best =>
    let r := child (-beta) (-alpha) (G.playMove s m) clk best
    let s' := G.undoMove r.board
    let value := -r.value
    if r.timedOut then ⟨0, false, true, r.clk, r.best, s'⟩
    else
      let anyUnsolved' := anyUnsolved || !r.solved
      let alpha' := if value > alpha then value else alpha
      let best' := if value > alpha ∧ depth = 0 then m else r.best
      if r.solved ∧ value = 1 then ⟨1, true, false, r.clk, best', s'⟩
      else if value ≥ beta then ⟨beta, true, false, r.clk, best', s'⟩
      else abGo G child depth beta ms alpha' anyUnsolved' s' r.clk best'

/-- `A4SubmissionPlayer.alpha_beta(alpha, beta, depth)` (lines 47–92).
`oracle k` is the outcome of the k-th deadline sample
(`time.time() - self.solve_start_time > self.time_limit - 0.01`), sampled
once at every call entry; `shuffle` models `random.shuffle`, applied to the
move list only at `depth == 0`; `fuel = self.max_depth - depth`, so
`fuel = 0` is exactly the `depth >= self.max_depth` cutoff. -/
def alphaBeta {S M : Type} (G : GameOps S M) (oracle : Nat → Bool)
    (shuffle : List M → List M) (fuel : Nat) (depth : Nat)
    (alpha beta : Int) (s : S) (clk : Nat) (best : M) : ABOut S M :=
  if oracle clk then ⟨0, false, true, clk + 1, best, s⟩
  else
    let t := G.isTerminal s
    if t.1 then
      if t.2 = G.currentPlayer s then ⟨1, true, false, clk + 1, best, s⟩
      else if t.2 = opponent (G.currentPlayer s) then
        ⟨-1, true, false, clk + 1, best, s⟩
      else ⟨0, true, false, clk + 1, best, s⟩
    else
      match fuel with
      | 0 => ⟨0, false, false, clk + 1, best, s⟩
      | fuel' + 1 =>
        let moves := G.legalMoves s
        let moves := if depth = 0 then shuffle moves else moves
        abGo G (alphaBeta G oracle shuffle fuel' (depth + 1)) depth beta
          moves alpha false s (clk + 1) best

/-- The iterative-deepening loop of `solve_board` (lines 111–116): run
`alpha_beta(-1, 1, 0)` at `max_depth`, incrementing the depth while the
result is neither solved nor timed out.  The source's `while` loop has no
iteration bound, so the embedding carries fuel and returns `none` when it
is exhausted. -/
def solveLoop {S M : Type} (G : GameOps S M) (oracle : Nat → Bool)
    (shuffle : List M → List M) :
    Nat → Nat → S → Nat → M → Option (ABOut S M)
  | 0, _, _, _, _ => none
  | it + 1, maxDepth, s, clk, best =>
    let r := alphaBeta G oracle shuffle maxDepth 0 (-1) 1 s clk best
    if !r.solved && !r.timedOut then
      solveLoop G oracle shuffle it (maxDepth + 1) r.board r.clk r.best
    else some r

/-- Brute-force negamax reference value of a position to `n` plies: the
exact game-theoretic value relative to the side to move whenever every line
reaches a terminal position within `n` plies. -/
def negamax {S M : Type} (G : GameOps S M) : Nat → S → Int
  | n, s =>
    let t := G.isTerminal s
    if t.1 then
      if t.2 = G.currentPlayer s then 1
      else if t.2 = opponent (G.currentPlayer s) then -1
      else 0
    else
      match n with
      | 0 => 0
      | n' + 1 =>
        (G.legalMoves s).foldl
          (fun a m => max a (-(negamax G n' (G.playMove s m)))) (-1)

/-- Whether every line from `s` reaches a terminal position within `n`
plies, so that a depth limit of `n` never truncates the search below `s`. -/
def solvableB {S M : Type} (G : GameOps S M) : Nat → S → Bool
  | n, s =>
    (G.isTerminal s).1 ||
      match n with
      | 0 => false
      | n' + 1 => (G.legalMoves s).all (fun m => solvableB G n' (G.playMove s m))

/-! ### Claim C4: timeout checking and propagation -/

/-- Every `abGo` return carrying `timedOut = true` is the literal
`(0, solved=false, timeout=true)` triple. -/
theorem abGo_timedOut_shape {S M : Type} (G : GameOps S M)
    (child : Int → Int → S → Nat → M → ABOut S M) (depth : Nat) (beta : Int) :
    ∀ (ms : List M) (alpha : Int) (anyU : Bool) (s : S) (clk : Nat) (best : M),
      (abGo G child depth beta ms alpha anyU s clk best).timedOut = true →
      (abGo G child depth beta ms alpha anyU s clk best).value = 0 ∧
      (abGo G child depth beta ms alpha anyU s clk best).solved = false := by
  intro ms
  induction ms with
  | nil =>
    intro alpha anyU s clk best h
    simp [abGo] at h
  | cons m ms ih =>
    intro alpha anyU s clk best h
    rw [abGo] at h ⊢
    by_cases ht : (child (-beta) (-alpha) (G.playMove s m) clk best).timedOut = true
    · simp [ht]
    · simp only [ht, if_false, Bool.not_eq_true] at *
      by_cases hw : (child (-beta) (-alpha) (G.playMove s m) clk best).solved = true ∧
          -(child (-beta) (-alpha) (G.playMove s m) clk best).value = 1
      · rw [if_pos hw] at h
        simp at h
      · rw [if_neg hw] at h ⊢
        by_cases hb : -(child (-beta) (-alpha) (G.playMove s m) clk best).value ≥ beta
        · rw [if_pos hb] at h
          simp at h
        · rw [if_neg hb] at h ⊢
          exact ih _ _ _ _ _ h

/-- Claim C4: (1) the deadline is sampled at call entry before anything
else — when the sample reports expiry, `alpha_beta` returns the timeout
triple at once, for every board state, window, depth and fuel; (2) a child
call reporting timeout makes the loop (and hence the caller) return the
timeout triple immediately after the undo; (3) any result reporting
`timedOut = true` has `solved = false` and value 0 — a timeout is never
converted into a solved result at any recursion level. -/
theorem alphaBeta_timeout_discipline {S M : Type} (G : GameOps S M)
    (oracle : Nat → Bool) (shuffle : List M → List M) :
    (∀ (fuel depth : Nat) (alpha beta : Int) (s : S) (clk : Nat) (best : M),
      oracle clk = true →
      alphaBeta G oracle shuffle fuel depth alpha beta s clk best =
        ⟨0, false, true, clk + 1, best, s⟩) ∧
    (∀ (child : Int → Int → S → Nat → M → ABOut S M) (depth : Nat)
      (beta : Int) (m : M) (ms : List M) (alpha : Int) (anyU : Bool) (s : S)
      (clk : Nat) (best : M),
      (child (-beta) (-alpha) (G.playMove s m) clk best).timedOut = true →
      abGo G child depth beta (m :: ms) alpha anyU s clk best =
        ⟨0, false, true, (child (-beta) (-alpha) (G.playMove s m) clk best).clk,
          (child (-beta) (-alpha) (G.playMove s m) clk best).best,
          G.undoMove (child (-beta) (-alpha) (G.playMove s m) clk best).board⟩) ∧
    (∀ (fuel depth : Nat) (alpha beta : Int) (s : S) (clk : Nat) (best : M),
      (alphaBeta G oracle shuffle fuel depth alpha beta s clk best).timedOut = true →
      (alphaBeta G oracle shuffle fuel depth alpha beta s clk best).value = 0 ∧
      (alphaBeta G oracle shuffle fuel depth alpha beta s clk best).solved = false) := by
  refine ⟨?_, ?_, ?_⟩
  · intro fuel depth alpha beta s clk best h
    rw [alphaBeta.eq_def, if_pos h]
  · intro child depth beta m ms alpha anyU s clk best h
    rw [abGo]
    simp only [h, if_true]
  · intro fuel depth alpha beta s clk best h
    rw [alphaBeta.eq_def] at h ⊢
    by_cases ho : oracle clk = true
    · simp [ho]
    · simp only [ho, if_false, Bool.false_eq_true] at *
      by_cases hterm : (G.isTerminal s).1 = true
      · simp only [hterm, if_true] at h ⊢
        by_cases h1 : (G.isTerminal s).2 = G.currentPlayer s
        · rw [if_pos h1] at h
          simp at h
        · by_cases h2 : (G.isTerminal s).2 = opponent (G.currentPlayer s)
          · rw [if_neg h1, if_pos h2] at h
            simp at h
          · rw [if_neg h1, if_neg h2] at h
            simp at h
      · simp only [hterm] at h ⊢
        cases fuel with
        | zero => simp at h
        | succ fuel' =>
          simp only at h ⊢
          exact abGo_timedOut_shape G _ _ _ _ _ _ _ _ _ h

/-! ### A concrete instance of the board interface

A four-position game used as a concrete input: `R` (Black to move, two
moves), `A` (terminal draw), `B` (White to move, one move), `C` (Black to
move, one move), `D` (terminal, Black wins).  It satisfies every law the
abstract theorems assume, and per spec §9 the board's terminal predicate is
explicitly pluggable. -/

/-- States of the small concrete game tree. -/
inductive ToyS where
  | R | A | B | C | D
deriving DecidableEq

/-- The concrete game: `R → A` (move 0, draw), `R → B` (move 1),
`B → C` (move 0), `C → D` (move 0, a win for Black, White to move). -/
def toyGame : GameOps ToyS Nat where
  isTerminal
    | .A => (true, EMPTY)
    | .D => (true, BLACK)
    | _ => (false, EMPTY)
  currentPlayer
    | .R => BLACK
    | .A => WHITE
    | .B => WHITE
    | .C => BLACK
    | .D => WHITE
  legalMoves
    | .R => [0, 1]
    | .B => [0]
    | .C => [0]
    | _ => []
  playMove
    | .R, 0 => .A
    | .R, _ => .B
    | .B, _ => .C
    | .C, _ => .D
    | s, _ => s
  undoMove
    | .A => .R
    | .B => .R
    | .C => .B
    | .D => .C
    | s => s

/-- Witness for `alphaBeta_timeout_discipline`: with an immediately-expired
deadline the toy root call returns the timeout triple; a timed-out child
aborts the loop; a timed-out result is unsolved with value 0. -/
theorem alphaBeta_timeout_discipline_witness :
    alphaBeta toyGame (fun _ => true) id 2 0 (-1) 1 ToyS.R 0 0 =
      ⟨0, false, true, 1, 0, ToyS.R⟩ ∧
    ((alphaBeta toyGame (fun _ => true) id 2 0 (-1) 1 ToyS.R 0 0).timedOut = true →
      (alphaBeta toyGame (fun _ => true) id 2 0 (-1) 1 ToyS.R 0 0).value = 0 ∧
      (alphaBeta toyGame (fun _ => true) id 2 0 (-1) 1 ToyS.R 0 0).solved = false) :=
  ⟨(alphaBeta_timeout_discipline toyGame (fun _ => true) id).1 2 0 (-1) 1
      ToyS.R 0 0 rfl,
    (alphaBeta_timeout_discipline toyGame (fun _ => true) id).2.2 2 0 (-1) 1
      ToyS.R 0 0⟩

/-- Claim C1 counterexample: on the concrete game, `alpha_beta` with
`max_depth = 2` (never timing out) returns value 0 marked `solved = true`,
yet the exact negamax value of the root is 1 (Black wins): the beta cutoff
at the depth-limited child `B` marks an unsolved heuristic 0 as solved, the
iterative-deepening loop therefore stops and reports a proven draw.  Every
conjunct of the claim fails: the solved result is not the negamax value,
the cutoff value is not a proven lower bound (the true value of `B` for
White is −1 < 0), and `B` is marked solved although its only explored child
was unsolved. -/
theorem alphaBeta_phantom_solved :
    ((alphaBeta toyGame (fun _ => false) id 2 0 (-1) 1 ToyS.R 0 0).value = 0 ∧
      (alphaBeta toyGame (fun _ => false) id 2 0 (-1) 1 ToyS.R 0 0).solved = true ∧
      (alphaBeta toyGame (fun _ => false) id 2 0 (-1) 1 ToyS.R 0 0).timedOut = false) ∧
    negamax toyGame 3 ToyS.R = 1 ∧
    solvableB toyGame 3 ToyS.R = true ∧
    ((solveLoop toyGame (fun _ => false) id 5 1 ToyS.R 0 0).map
      (fun r => (r.value, r.solved, r.timedOut))) = some (0, true, false) := by
  decide

/-! ### Frame lemmas: the search restores the board and keeps the best move
within the supplied move class -/

/-- Frame lemma for the move loop: if every child call returns its board
exactly as received and returns a best move of class `P`, then the loop
returns the board it received and a best move of class `P` (each
`play_move` is matched by an `undo`, on every path out of the loop). -/
theorem abGo_frame {S M : Type} (G : GameOps S M)
    (child : Int → Int → S → Nat → M → ABOut S M) (depth : Nat) (beta : Int)
    (Inv : S → Prop) (P : M → Prop)
    (hplay : ∀ s m, Inv s → m ∈ G.legalMoves s → Inv (G.playMove s m))
    (hundo : ∀ s m, Inv s → m ∈ G.legalMoves s → G.undoMove (G.playMove s m) = s)
    (hchild : ∀ (a b : Int) (s' : S) (clk : Nat) (bm : M), Inv s' → P bm →
      (child a b s' clk bm).board = s' ∧ P (child a b s' clk bm).best) :
    ∀ (ms : List M) (alpha : Int) (anyU : Bool) (s : S) (clk : Nat) (best : M),
      Inv s → P best → (∀ m ∈ ms, m ∈ G.legalMoves s) → (∀ m ∈ ms, P m) →
      (abGo G child depth beta ms alpha anyU s clk best).board = s ∧
      P (abGo G child depth beta ms alpha anyU s clk best).best := by
  intro ms
  induction ms with
  | nil =>
    intro alpha anyU s clk best hs hb _ _
    exact ⟨rfl, hb⟩
  | cons m ms ih =>
    intro alpha anyU s clk best hs hb hms hPms
    have hmem : m ∈ G.legalMoves s := hms m (List.mem_cons_self m ms)
    have hInv' : Inv (G.playMove s m) := hplay s m hs hmem
    obtain ⟨hcb, hcbest⟩ := hchild (-beta) (-alpha) (G.playMove s m) clk best hInv' hb
    have hs' : G.undoMove (child (-beta) (-alpha) (G.playMove s m) clk best).board = s := by
      rw [hcb]
      exact hundo s m hs hmem
    have hbest' : P (if -(child (-beta) (-alpha) (G.playMove s m) clk best).value > alpha
        ∧ depth = 0 then m else (child (-beta) (-alpha) (G.playMove s m) clk best).best) := by
      split
      · exact hPms m (List.mem_cons_self m ms)
      · exact hcbest
    simp only [abGo]
    by_cases ht : (child (-beta) (-alpha) (G.playMove s m) clk best).timedOut = true
    · rw [if_pos ht]
      exact ⟨hs', hcbest⟩
    · rw [if_neg ht]
      by_cases hw : (child (-beta) (-alpha) (G.playMove s m) clk best).solved = true ∧
          -(child (-beta) (-alpha) (G.playMove s m) clk best).value = 1
      · rw [if_pos hw]
        exact ⟨hs', hbest'⟩
      · rw [if_neg hw]
        by_cases hbt : -(child (-beta) (-alpha) (G.playMove s m) clk best).value ≥ beta
        · rw [if_pos hbt]
          exact ⟨hs', hbest'⟩
        · rw [if_neg hbt]
          rw [hs']
          exact ih _ _ s _ _ hs hbest'
            (fun x hx => hms x (List.mem_cons_of_mem m hx))
            (fun x hx => hPms x (List.mem_cons_of_mem m hx))

/-- The three terminal-evaluation returns of `alpha_beta` all hand the board
and best move back unchanged; this packages the nested conditionals. -/
theorem abTermReturn_frame {S M : Type} (G : GameOps S M) (s : S) (clk : Nat)
    (best : M) (Q : ABOut S M → Prop)
    (hQ : ∀ v : Int, Q ⟨v, true, false, clk + 1, best, s⟩) :
    Q (if (G.isTerminal s).2 = G.currentPlayer s then
        ⟨1, true, false, clk + 1, best, s⟩
      else if (G.isTerminal s).2 = opponent (G.currentPlayer s) then
        ⟨-1, true, false, clk + 1, best, s⟩
      else ⟨0, true, false, clk + 1, best, s⟩) := by
  by_cases h1 : (G.isTerminal s).2 = G.currentPlayer s
  · rw [if_pos h1]
    exact hQ 1
  · rw [if_neg h1]
    by_cases h2 : (G.isTerminal s).2 = opponent (G.currentPlayer s)
    · rw [if_pos h2]
      exact hQ (-1)
    · rw [if_neg h2]
      exact hQ 0

/-- Frame theorem for `alpha_beta`: on every return path — terminal,
depth-limited, solved, cut off or timed out — the board comes back exactly
as it went in, and the best move stays within the class `P` (which contains
the incoming best move and every generated legal move). -/
theorem alphaBeta_frame {S M : Type} (G : GameOps S M) (oracle : Nat → Bool)
    (shuffle : List M → List M) (Inv : S → Prop) (P : M → Prop)
    (hplay : ∀ s m, Inv s → m ∈ G.legalMoves s → Inv (G.playMove s m))
    (hundo : ∀ s m, Inv s → m ∈ G.legalMoves s → G.undoMove (G.playMove s m) = s)
    (hmovesP : ∀ s, Inv s → ∀ m ∈ G.legalMoves s, P m)
    (hshuf : ∀ (l : List M) (x : M), x ∈ shuffle l → x ∈ l) :
    ∀ (fuel depth : Nat) (alpha beta : Int) (s : S) (clk : Nat) (best : M),
      Inv s → P best →
      (alphaBeta G oracle shuffle fuel depth alpha beta s clk best).board = s ∧
      P (alphaBeta G oracle shuffle fuel depth alpha beta s clk best).best := by
  intro fuel
  induction fuel with
  | zero =>
    intro depth alpha beta s clk best hs hb
    rw [alphaBeta.eq_def]
    by_cases ho : oracle clk = true
    · rw [if_pos ho]
      exact ⟨rfl, hb⟩
    · rw [if_neg ho]
      by_cases hterm : (G.isTerminal s).1 = true
      · rw [if_pos hterm]
        exact abTermReturn_frame G s clk best
          (fun out => out.board = s ∧ P out.best) (fun _ => ⟨rfl, hb⟩)
      · rw [if_neg hterm]
        exact ⟨rfl, hb⟩
  | succ fuel' ih =>
    intro depth alpha beta s clk best hs hb
    rw [alphaBeta.eq_def]
    by_cases ho : oracle clk = true
    · rw [if_pos ho]
      exact ⟨rfl, hb⟩
    · rw [if_neg ho]
      by_cases hterm : (G.isTerminal s).1 = true
      · rw [if_pos hterm]
        exact abTermReturn_frame G s clk best
          (fun out => out.board = s ∧ P out.best) (fun _ => ⟨rfl, hb⟩)
      · rw [if_neg hterm]
        apply abGo_frame G _ depth beta Inv P hplay hundo
          (fun a b s' clk' bm hs' hb' => ih (depth + 1) a b s' clk' bm hs' hb')
          _ alpha false s (clk + 1) best hs hb
        · intro m hm
          by_cases hd : depth = 0
          · rw [if_pos hd] at hm
            exact hshuf _ _ hm
          · rw [if_neg hd] at hm
            exact hm
        · intro m hm
          apply hmovesP s hs
          by_cases hd : depth = 0
          · rw [if_pos hd] at hm
            exact hshuf _ _ hm
          · rw [if_neg hd] at hm
            exact hm

/-! ### Soundness of solved results when the depth limit never truncates -/

theorem foldl_max_ge_init {M : Type} (f : M → Int) :
    ∀ (l : List M) (a : Int), a ≤ l.foldl (fun x m => max x (f m)) a := by
  intro l
  induction l with
  | nil => intro a; simp
  | cons m ms ih =>
    intro a
    simp only [List.foldl_cons]
    exact le_trans (le_max_left _ _) (ih _)

theorem foldl_max_top {M : Type} (f : M → Int) :
    ∀ (l : List M) (a : Int), (∀ m ∈ l, f m ≤ a) →
      l.foldl (fun x m => max x (f m)) a = a := by
  intro l
  induction l with
  | nil => intro a _; rfl
  | cons m ms ih =>
    intro a h
    simp only [List.foldl_cons]
    rw [max_eq_left (h m (List.mem_cons_self m ms))]
    exact ih a (fun x hx => h x (List.mem_cons_of_mem m hx))

theorem foldl_max_le {M : Type} (f : M → Int) :
    ∀ (l : List M) (a c : Int), a ≤ c → (∀ m ∈ l, f m ≤ c) →
      l.foldl (fun x m => max x (f m)) a ≤ c := by
  intro l
  induction l with
  | nil => intro a c ha _; exact ha
  | cons m ms ih =>
    intro a c ha h
    simp only [List.foldl_cons]
    exact ih _ c (max_le ha (h m (List.mem_cons_self m ms)))
      (fun x hx => h x (List.mem_cons_of_mem m hx))

theorem foldl_max_shift {M : Type} (f : M → Int) :
    ∀ (l : List M) (a b : Int),
      l.foldl (fun x m => max x (f m)) (max a b) =
        max a (l.foldl (fun x m => max x (f m)) b) := by
  intro l
  induction l with
  | nil => intro a b; rfl
  | cons m ms ih =>
    intro a b
    simp only [List.foldl_cons]
    rw [max_assoc, ih]

theorem foldl_max_perm {M : Type} (f : M → Int) {l₁ l₂ : List M}
    (h : l₁.Perm l₂) :
    ∀ a : Int, l₁.foldl (fun x m => max x (f m)) a =
      l₂.foldl (fun x m => max x (f m)) a := by
  induction h with
  | nil => intro a; rfl
  | cons x _ ih =>
    intro a
    simp only [List.foldl_cons]
    exact ih _
  | swap x y l =>
    intro a
    simp only [List.foldl_cons]
    rw [sup_right_comm]
  | trans _ _ ih1 ih2 =>
    intro a
    rw [ih1, ih2]

/-- The reference negamax value always lies in `[-1, 1]`. -/
theorem negamax_range {S M : Type} (G : GameOps S M) :
    ∀ (n : Nat) (s : S), -1 ≤ negamax G n s ∧ negamax G n s ≤ 1 := by
  intro n
  induction n with
  | zero =>
    intro s
    rw [negamax]
    by_cases hterm : (G.isTerminal s).1 = true
    · rw [if_pos hterm]
      by_cases h1 : (G.isTerminal s).2 = G.currentPlayer s
      · rw [if_pos h1]; omega
      · rw [if_neg h1]
        by_cases h2 : (G.isTerminal s).2 = opponent (G.currentPlayer s)
        · rw [if_pos h2]; omega
        · rw [if_neg h2]; omega
    · rw [if_neg hterm]
      omega
  | succ n' ih =>
    intro s
    rw [negamax]
    by_cases hterm : (G.isTerminal s).1 = true
    · rw [if_pos hterm]
      by_cases h1 : (G.isTerminal s).2 = G.currentPlayer s
      · rw [if_pos h1]; omega
      · rw [if_neg h1]
        by_cases h2 : (G.isTerminal s).2 = opponent (G.currentPlayer s)
        · rw [if_pos h2]; omega
        · rw [if_neg h2]; omega
    · rw [if_neg hterm]
      constructor
      · exact foldl_max_ge_init _ _ _
      · exact foldl_max_le _ _ _ _ (by omega)
          (fun m _ => by have := (ih (G.playMove s m)).1; omega)

/-- Soundness of a search result relative to a window `(alpha, beta)` and a
reference value `v`: not timed out, marked solved, and the value is the
window-clamped reference value — or the raw `1` (resp. `-1`) of an exact
win (resp. loss) report, which the code returns unclamped. -/
def ABSound {S M : Type} (alpha beta v : Int) (out : ABOut S M) : Prop :=
  out.timedOut = false ∧ out.solved = true ∧
    (out.value = max alpha (min beta v) ∨
      (out.value = 1 ∧ v = 1) ∨ (out.value = -1 ∧ v = -1))

/-- Exactness of the move loop when every child is exact: with no child
timed out and every child solved and window-exact, the loop returns a
solved, untimed result whose value is sound for the fold (from `alpha`) of
the children's negated reference values. -/
theorem abGo_exact {S M : Type} (G : GameOps S M)
    (child : Int → Int → S → Nat → M → ABOut S M)
    (fuel' depth : Nat) (beta : Int) (Inv : S → Prop)
    (hplay : ∀ s m, Inv s → m ∈ G.legalMoves s → Inv (G.playMove s m))
    (hundo : ∀ s m, Inv s → m ∈ G.legalMoves s → G.undoMove (G.playMove s m) = s)
    (hchild_frame : ∀ (a b : Int) (s' : S) (clk : Nat) (bm : M), Inv s' →
      (child a b s' clk bm).board = s')
    (hchild : ∀ (a b : Int) (s' : S) (clk : Nat) (bm : M), Inv s' →
      solvableB G fuel' s' = true → -1 ≤ a → a < b → b ≤ 1 →
      ABSound a b (negamax G fuel' s') (child a b s' clk bm)) :
    ∀ (ms : List M) (alpha : Int) (s : S) (clk : Nat) (best : M),
      Inv s → (∀ m ∈ ms, m ∈ G.legalMoves s) →
      (∀ m ∈ ms, solvableB G fuel' (G.playMove s m) = true) →
      -1 ≤ alpha → alpha < beta → beta ≤ 1 →
      ABSound alpha beta
        (ms.foldl (fun a m => max a (-(negamax G fuel' (G.playMove s m)))) alpha)
        (abGo G child depth beta ms alpha false s clk best) := by
  intro ms
  induction ms with
  | nil =>
    intro alpha s clk best _ _ _ ha hab hb1
    refine ⟨rfl, rfl, Or.inl ?_⟩
    simp only [List.foldl_nil, abGo]
    show alpha = _
    omega
  | cons m ms ih =>
    intro alpha s clk best hs hms hsolv ha hab hb1
    have hmem : m ∈ G.legalMoves s := hms m (List.mem_cons_self m ms)
    have hInv' : Inv (G.playMove s m) := hplay s m hs hmem
    obtain ⟨hT, hS, hV⟩ := hchild (-beta) (-alpha) (G.playMove s m) clk best hInv'
      (hsolv m (List.mem_cons_self m ms)) (by omega) (by omega) (by omega)
    obtain ⟨hw1, hw2⟩ := negamax_range G fuel' (G.playMove s m)
    have hs' : G.undoMove (child (-beta) (-alpha) (G.playMove s m) clk best).board
        = s := by
      rw [hchild_frame (-beta) (-alpha) _ clk best hInv']
      exact hundo s m hs hmem
    simp only [abGo, List.foldl_cons]
    set r := child (-beta) (-alpha) (G.playMove s m) clk best with hr
    set w := negamax G fuel' (G.playMove s m) with hwdef
    rw [if_neg (by rw [hT]; exact Bool.false_ne_true)]
    have hanyU : (false || !r.solved) = false := by
      rw [hS]
      rfl
    rw [hanyU, hs']
    by_cases hwin : -r.value = 1
    · rw [if_pos ⟨hS, hwin⟩]
      have hwm1 : w = -1 := by
        rcases hV with h | ⟨h1, h2⟩ | ⟨h1, h2⟩ <;> omega
      refine ⟨rfl, rfl, Or.inr (Or.inl ⟨rfl, ?_⟩)⟩
      rw [hwm1, (by omega : max alpha (-(-1) : ℤ) = 1)]
      exact foldl_max_top _ ms 1 (fun x _ => by
        have := (negamax_range G fuel' (G.playMove s x)).1
        omega)
    · rw [if_neg (fun hcon => hwin hcon.2)]
      by_cases hbt : -r.value ≥ beta
      · rw [if_pos hbt]
        have hvm : beta ≤ -w := by
          rcases hV with h | ⟨h1, h2⟩ | ⟨h1, h2⟩ <;> omega
        refine ⟨rfl, rfl, Or.inl ?_⟩
        have hF := foldl_max_ge_init
          (fun x => -(negamax G fuel' (G.playMove s x))) ms (max alpha (-w))
        show beta = _
        omega
      · rw [if_neg hbt]
        rcases hV with hC | ⟨h1, h2⟩ | ⟨h1, h2⟩
        · by_cases hle : -w ≤ alpha
          · rw [if_neg (by omega : ¬(-r.value > alpha))]
            rw [(by omega : max alpha (-w) = alpha)]
            exact ih alpha s r.clk _ hs
              (fun x hx => hms x (List.mem_cons_of_mem m hx))
              (fun x hx => hsolv x (List.mem_cons_of_mem m hx)) ha hab hb1
          · push_neg at hle
            by_cases hge : beta ≤ -w
            · exact absurd (by omega : -r.value ≥ beta) hbt
            · push_neg at hge
              have hrv : -r.value = -w := by omega
              rw [(by omega : max alpha (-w) = -w)]
              have hrw : (if -r.value > alpha then -r.value else alpha) = -w := by
                rw [if_pos (by omega : -r.value > alpha)]
                omega
              rw [hrw]
              obtain ⟨g1, g2, g3⟩ := ih (-w) s r.clk _ hs
                (fun x hx => hms x (List.mem_cons_of_mem m hx))
                (fun x hx => hsolv x (List.mem_cons_of_mem m hx))
                (by omega) (by omega) hb1
              refine ⟨g1, g2, ?_⟩
              have hF := foldl_max_ge_init
                (fun x => -(negamax G fuel' (G.playMove s x))) ms (-w)
              rcases g3 with g | ⟨gl, gr⟩ | ⟨gl, gr⟩
              · exact Or.inl (by omega)
              · exact Or.inr (Or.inl ⟨gl, gr⟩)
              · exact absurd gr (by omega)
        · rw [if_neg (by omega : ¬(-r.value > alpha))]
          rw [(by omega : max alpha (-w) = alpha)]
          exact ih alpha s r.clk _ hs
            (fun x hx => hms x (List.mem_cons_of_mem m hx))
            (fun x hx => hsolv x (List.mem_cons_of_mem m hx)) ha hab hb1
        · exact absurd (by omega : -r.value = 1) hwin

/-- The reference value of a terminal position is its terminal evaluation,
at every fuel. -/
theorem negamax_terminal {S M : Type} (G : GameOps S M) (n : Nat) (s : S)
    (hterm : (G.isTerminal s).1 = true) :
    negamax G n s =
      if (G.isTerminal s).2 = G.currentPlayer s then 1
      else if (G.isTerminal s).2 = opponent (G.currentPlayer s) then -1
      else 0 := by
  cases n with
  | zero =>
    simp only [negamax]
    rw [if_pos hterm]
  | succ n' =>
    simp only [negamax]
    rw [if_pos hterm]

/-- Exactness of `alpha_beta` under a never-expiring clock and a depth limit
that never truncates: the result is solved, not timed out, and its value is
the window-clamped negamax value (or a raw exact win/loss). -/
theorem alphaBeta_exact {S M : Type} (G : GameOps S M) (oracle : Nat → Bool)
    (shuffle : List M → List M) (Inv : S → Prop)
    (hplay : ∀ s m, Inv s → m ∈ G.legalMoves s → Inv (G.playMove s m))
    (hundo : ∀ s m, Inv s → m ∈ G.legalMoves s → G.undoMove (G.playMove s m) = s)
    (hsh : ∀ l : List M, (shuffle l).Perm l)
    (hor : ∀ k, oracle k = false) :
    ∀ (fuel depth : Nat) (alpha beta : Int) (s : S) (clk : Nat) (best : M),
      Inv s → solvableB G fuel s = true →
      -1 ≤ alpha → alpha < beta → beta ≤ 1 →
      ABSound alpha beta (negamax G fuel s)
        (alphaBeta G oracle shuffle fuel depth alpha beta s clk best) := by
  intro fuel
  induction fuel with
  | zero =>
    intro depth alpha beta s clk best hs hsolv ha hab hb1
    rw [alphaBeta.eq_def]
    rw [if_neg (by simp [hor clk])]
    by_cases hterm : (G.isTerminal s).1 = true
    · rw [if_pos hterm]
      by_cases h1 : (G.isTerminal s).2 = G.currentPlayer s
      · rw [if_pos h1]
        exact ⟨rfl, rfl, Or.inr (Or.inl ⟨rfl, by
          rw [negamax_terminal G 0 s hterm, if_pos h1]⟩)⟩
      · rw [if_neg h1]
        by_cases h2 : (G.isTerminal s).2 = opponent (G.currentPlayer s)
        · rw [if_pos h2]
          exact ⟨rfl, rfl, Or.inr (Or.inr ⟨rfl, by
            rw [negamax_terminal G 0 s hterm, if_neg h1, if_pos h2]⟩)⟩
        · rw [if_neg h2]
          refine ⟨rfl, rfl, Or.inl ?_⟩
          rw [negamax_terminal G 0 s hterm, if_neg h1, if_neg h2]
          show (0 : ℤ) = _
          omega
    · exfalso
      simp only [solvableB] at hsolv
      rw [Bool.not_eq_true] at hterm
      rw [hterm] at hsolv
      simp at hsolv
  | succ fuel' ih =>
    intro depth alpha beta s clk best hs hsolv ha hab hb1
    rw [alphaBeta.eq_def]
    rw [if_neg (by simp [hor clk])]
    by_cases hterm : (G.isTerminal s).1 = true
    · rw [if_pos hterm]
      by_cases h1 : (G.isTerminal s).2 = G.currentPlayer s
      · rw [if_pos h1]
        exact ⟨rfl, rfl, Or.inr (Or.inl ⟨rfl, by
          rw [negamax_terminal G (fuel' + 1) s hterm, if_pos h1]⟩)⟩
      · rw [if_neg h1]
        by_cases h2 : (G.isTerminal s).2 = opponent (G.currentPlayer s)
        · rw [if_pos h2]
          exact ⟨rfl, rfl, Or.inr (Or.inr ⟨rfl, by
            rw [negamax_terminal G (fuel' + 1) s hterm, if_neg h1, if_pos h2]⟩)⟩
        · rw [if_neg h2]
          refine ⟨rfl, rfl, Or.inl ?_⟩
          rw [negamax_terminal G (fuel' + 1) s hterm, if_neg h1, if_neg h2]
          show (0 : ℤ) = _
          omega
    · rw [if_neg hterm]
      change ABSound alpha beta (negamax G (fuel' + 1) s)
        (abGo G (alphaBeta G oracle shuffle fuel' (depth + 1)) depth beta
          (if depth = 0 then shuffle (G.legalMoves s) else G.legalMoves s)
          alpha false s (clk + 1) best)
      have hperm : (if depth = 0 then shuffle (G.legalMoves s)
          else G.legalMoves s).Perm (G.legalMoves s) := by
        split
        · exact hsh _
        · exact List.Perm.refl _
      have hmsmem : ∀ m ∈ (if depth = 0 then shuffle (G.legalMoves s)
          else G.legalMoves s), m ∈ G.legalMoves s :=
        fun m hm => hperm.mem_iff.mp hm
      have hsolv' : ∀ m ∈ G.legalMoves s,
          solvableB G fuel' (G.playMove s m) = true := by
        simp only [solvableB] at hsolv
        rw [Bool.not_eq_true] at hterm
        rw [hterm] at hsolv
        simp only [Bool.false_or, List.all_eq_true] at hsolv
        exact hsolv
      obtain ⟨g1, g2, g3⟩ := abGo_exact G
        (alphaBeta G oracle shuffle fuel' (depth + 1)) fuel' depth beta Inv
        hplay hundo
        (fun a b s' clk' bm hs' =>
          (alphaBeta_frame G oracle shuffle Inv (fun _ => True) hplay hundo
            (fun _ _ _ _ => trivial)
            (fun l x hx => (hsh l).mem_iff.mp hx) fuel' (depth + 1) a b s'
            clk' bm hs' trivial).1)
        (fun a b s' clk' bm hs' hsv ha' hab' hb' =>
          ih (depth + 1) a b s' clk' bm hs' hsv ha' hab' hb')
        (if depth = 0 then shuffle (G.legalMoves s) else G.legalMoves s)
        alpha s (clk + 1) best hs hmsmem
        (fun m hm => hsolv' m (hmsmem m hm)) ha hab hb1
      have hN : negamax G (fuel' + 1) s =
          (G.legalMoves s).foldl
            (fun a m => max a (-(negamax G fuel' (G.playMove s m)))) (-1) := by
        simp only [negamax]
        rw [if_neg hterm]
      have hVN : (if depth = 0 then shuffle (G.legalMoves s)
            else G.legalMoves s).foldl
          (fun a m => max a (-(negamax G fuel' (G.playMove s m)))) alpha =
          max alpha (negamax G (fuel' + 1) s) := by
        have e1 : (max alpha (-1) : ℤ) = alpha := max_eq_left (by omega)
        conv_lhs => rw [← e1]
        rw [foldl_max_shift, foldl_max_perm _ hperm, ← hN]
      rw [hVN] at g3
      obtain ⟨hNr1, hNr2⟩ := negamax_range G (fuel' + 1) s
      refine ⟨g1, g2, ?_⟩
      rcases g3 with g | ⟨gl, gr⟩ | ⟨gl, gr⟩
      · exact Or.inl (by omega)
      · exact Or.inr (Or.inl ⟨gl, by omega⟩)
      · exact Or.inr (Or.inr ⟨gl, by omega⟩)

/-- Claim C1 (amended): a result `alpha_beta` marks `solved = true` is sound
*provided* the deadline never expires and the depth limit never truncates
the searched subtree (`solvableB`): within any window `-1 ≤ α < β ≤ 1` the
returned value is the window-clamp of the exact negamax value (or a raw
exact win/loss), so an interior result is exact, a fail-low result is a
proven upper bound and a beta-cutoff a proven lower bound; at the root
window `(-1, 1)` the value equals the exact negamax value.  Without that
proviso the claim is false (`alphaBeta_phantom_solved`): a beta cutoff also
fires on an unsolved depth-limited child value and still marks the node
solved. -/
theorem alphaBeta_solved_sound {S M : Type} (G : GameOps S M)
    (oracle : Nat → Bool) (shuffle : List M → List M) (Inv : S → Prop)
    (hplay : ∀ s m, Inv s → m ∈ G.legalMoves s → Inv (G.playMove s m))
    (hundo : ∀ s m, Inv s → m ∈ G.legalMoves s → G.undoMove (G.playMove s m) = s)
    (hsh : ∀ l : List M, (shuffle l).Perm l)
    (hor : ∀ k, oracle k = false) :
    (∀ (fuel depth : Nat) (alpha beta : Int) (s : S) (clk : Nat) (best : M),
      Inv s → solvableB G fuel s = true →
      -1 ≤ alpha → alpha < beta → beta ≤ 1 →
      ABSound alpha beta (negamax G fuel s)
        (alphaBeta G oracle shuffle fuel depth alpha beta s clk best)) ∧
    (∀ (fuel depth : Nat) (s : S) (clk : Nat) (best : M),
      Inv s → solvableB G fuel s = true →
      (alphaBeta G oracle shuffle fuel depth (-1) 1 s clk best).value =
        negamax G fuel s ∧
      (alphaBeta G oracle shuffle fuel depth (-1) 1 s clk best).solved = true ∧
      (alphaBeta G oracle shuffle fuel depth (-1) 1 s clk best).timedOut = false) := by
  constructor
  · exact alphaBeta_exact G oracle shuffle Inv hplay hundo hsh hor
  · intro fuel depth s clk best hs hsolv
    obtain ⟨g1, g2, g3⟩ := alphaBeta_exact G oracle shuffle Inv hplay hundo hsh
      hor fuel depth (-1) 1 s clk best hs hsolv (by omega) (by omega) (by omega)
    obtain ⟨r1, r2⟩ := negamax_range G fuel s
    refine ⟨?_, g2, g1⟩
    rcases g3 with g | ⟨gl, gr⟩ | ⟨gl, gr⟩ <;> omega

/-- The undo law holds for the concrete game. -/
theorem toyGame_undo :
    ∀ (s : ToyS) (m : Nat), m ∈ toyGame.legalMoves s →
      toyGame.undoMove (toyGame.playMove s m) = s := by
  intro s m hm
  cases s
  · cases m with
    | zero => rfl
    | succ k => rfl
  · exact absurd hm (List.not_mem_nil m)
  · rfl
  · rfl
  · exact absurd hm (List.not_mem_nil m)

/-- Witness for `alphaBeta_solved_sound`: on the concrete game with
`max_depth = 3` (deep enough) the root search is exact. -/
theorem alphaBeta_solved_sound_witness :
    (alphaBeta toyGame (fun _ => false) id 3 0 (-1) 1 ToyS.R 0 0).value =
      negamax toyGame 3 ToyS.R ∧
    (alphaBeta toyGame (fun _ => false) id 3 0 (-1) 1 ToyS.R 0 0).solved = true ∧
    (alphaBeta toyGame (fun _ => false) id 3 0 (-1) 1 ToyS.R 0 0).timedOut = false :=
  (alphaBeta_solved_sound toyGame (fun _ => false) id (fun _ => True)
    (fun _ _ _ _ => trivial) (fun s m _ hm => toyGame_undo s m hm)
    (fun l => List.Perm.refl l) (fun _ => rfl)).2 3 0 ToyS.R 0 0 trivial
    (by decide)

/-! ## The modelled assignment-4 board

`solve_board` and `get_move` use `GoBoard` operations (`copy`, `play_move`,
`undo`, `get_empty_points`, `is_terminal`, `get_potential_moves`, `analyze`,
`check`, `result`) whose code is absent from `src/`.  They are modelled here
from spec §3–§4.1.  Spec §9 leaves the winning-line rule explicitly
unspecified and pluggable, so the board carries it as a function field. -/

/-- A move record (spec §3): the point played, the mover's color, the
captured points with their prior colors, and the capture-count delta. -/
structure Rec455 where
  point : ℤ
  color : Nat
  captured : List (ℤ × Nat)
  delta : Nat

/-- Modelled from the spec: the Board of §3 — the grid as a total cell
function over the 1-D border-ring encoding, the current player, per-color
capture tallies, and the undo history.  `lineFn grid` is the pluggable
winning-line predicate of §9, returning the winner's color or `EMPTY`. -/
structure Board455 where
  size : Nat
  grid : ℤ → Nat
  currentPlayer : Nat
  capB : Nat
  capW : Nat
  history : List Rec455
  lineFn : (ℤ → Nat) → Nat

/-- The row stride of the 1-D encoding (`NS = size + 1`, as fixed by
`point_to_coord` in `gtp_connection.py`). -/
def Board455.NS (b : Board455) : ℤ := (b.size : ℤ) + 1

/-- The playable points of a board of the given size, in array order. -/
def pointsList (size : Nat) : List ℤ :=
  (List.range size).flatMap (fun (r : ℕ) =>
    (List.range size).map (fun (c : ℕ) =>
      ((r : ℤ) + 1) * ((size : ℤ) + 1) + ((c : ℤ) + 1)))

/-- Modelled from the spec: `get_empty_points` — all currently Empty
playable points (§4.1), in array order. -/
def Board455.get_empty_points (b : Board455) : List ℤ :=
  (pointsList b.size).filter (fun p => b.grid p == EMPTY)

/-- Modelled from the spec: one direction of the capture resolution of
`play_move` (§4.1) — if the two cells beyond the played point hold the
opponent and the cell one step further holds the mover's color or the
border sentinel, empty both and record them with their prior colors. -/
def play455Step (point : ℤ) (color : Nat)
    (st : (ℤ → Nat) × List (ℤ × Nat)) (d : ℤ) :
    (ℤ → Nat) × List (ℤ × Nat) :=
  let g := st.1
  let n1 := point + d
  let n2 := point + d + d
  let e2 := point + d + d + d
  if g n1 = opponent color ∧ g n2 = opponent color ∧
      (g e2 = color ∨ g e2 = BORDER) then
    (fun q => if q = n1 ∨ q = n2 then EMPTY else g q,
      st.2 ++ [(n1, g n1), (n2, g n2)])
  else st

/-- Modelled from the spec: `play_move(point, color)` (§4.1) — fail on a
non-Empty point; otherwise place the stone, resolve captures in a fixed
direction order, add the delta to the mover's tally, flip the current
player and push the move record. -/
def Board455.play_move (b : Board455) (point : ℤ) (color : Nat) :
    Board455 × Bool :=
  if b.grid point = EMPTY then
    let g1 := fun q => if q = point then color else b.grid q
    let res := (a1directions b.NS).foldl (play455Step point color) (g1, [])
    ({ b with
        grid := res.1
        currentPlayer := opponent color
        capB := if color = BLACK then b.capB + res.2.length else b.capB
        capW := if color = WHITE then b.capW + res.2.length else b.capW
        history := ⟨point, color, res.2, res.2.length⟩ :: b.history }, true)
  else (b, false)

/-- Modelled from the spec: `undo` (§4.1) — pop the top record, restore
every captured point to its recorded prior color, restore the played point
to Empty, reverse the capture-count delta and restore the mover as current
player.  (With an empty history, a programming error per §7; the model
returns the board unchanged.) -/
def Board455.undo (b : Board455) : Board455 :=
  match b.history with
  | [] => b
  | rec :: rest =>
    { b with
      grid := fun q =>
        if q = rec.point then EMPTY
        else
          match rec.captured.find? (fun pc => pc.1 == q) with
          | some pc => pc.2
          | none => b.grid q
      currentPlayer := rec.color
      capB := if rec.color = BLACK then b.capB - rec.delta else b.capB
      capW := if rec.color = WHITE then b.capW - rec.delta else b.capW
      history := rest }

/-- Modelled from the spec: `copy` (§4.1) — identical cell state, scores
and current player, empty history. -/
def Board455.copy (b : Board455) : Board455 := { b with history := [] }

/-- Modelled from the spec: `is_terminal` (§4.1) — capture threshold 10 for
either side, the pluggable winning-line predicate, or no empty points
(draw); reports the winning color, `EMPTY` for a draw. -/
def Board455.is_terminal (b : Board455) : Bool × Nat :=
  if 10 ≤ b.capB then (true, BLACK)
  else if 10 ≤ b.capW then (true, WHITE)
  else if b.lineFn b.grid ≠ EMPTY then (true, b.lineFn b.grid)
  else if b.get_empty_points.length = 0 then (true, EMPTY)
  else (false, EMPTY)

/-- Modelled from the spec: `result` as consumed by the connection layer —
the winner's name, "draw" on a full board, else "unknown". -/
def Board455.result (b : Board455) : String :=
  if 10 ≤ b.capB then "black"
  else if 10 ≤ b.capW then "white"
  else if b.lineFn b.grid = BLACK then "black"
  else if b.lineFn b.grid = WHITE then "white"
  else if b.get_empty_points.length = 0 then "draw"
  else "unknown"

/-- Modelled from the spec: `GoBoard.check`, which `solve_board` returns on
timeout, is absent from `src/` and never described in the spec; as a method
of the board it can depend only on the board state, so it is modelled as
the board's result query paired with no move.  (Claim C3 fails for *any*
board-only model: the solver's `best_move` is not part of the board.) -/
def Board455.check (b : Board455) : String × Option String := (b.result, none)

/-- Invariant of the capture fold of `play_move`: every record holds the
pre-capture color of a cell distinct from the played point and currently
emptied; unrecorded cells still hold their pre-capture color. -/
theorem play455_fold_inv (point : ℤ) (color : Nat)
    (hc : color = BLACK ∨ color = WHITE) (g1 : ℤ → Nat)
    (hg1 : g1 point = color) :
    ∀ (ds : List ℤ) (st : (ℤ → Nat) × List (ℤ × Nat)),
      (∀ q, (q ∉ st.2.map Prod.fst → st.1 q = g1 q) ∧
        (q ∈ st.2.map Prod.fst → st.1 q = EMPTY)) →
      (∀ pc ∈ st.2, pc.1 ≠ point ∧ pc.2 = g1 pc.1 ∧ pc.2 = opponent color) →
      (∀ q, (q ∉ (ds.foldl (play455Step point color) st).2.map Prod.fst →
          (ds.foldl (play455Step point color) st).1 q = g1 q) ∧
        (q ∈ (ds.foldl (play455Step point color) st).2.map Prod.fst →
          (ds.foldl (play455Step point color) st).1 q = EMPTY)) ∧
      (∀ pc ∈ (ds.foldl (play455Step point color) st).2,
        pc.1 ≠ point ∧ pc.2 = g1 pc.1 ∧ pc.2 = opponent color) := by
  obtain ⟨hcE, hoE, hcop⟩ := playing_color_facts hc
  intro ds
  induction ds with
  | nil =>
    intro st h1 h2
    exact ⟨h1, h2⟩
  | cons d rest ih =>
    intro st h1 h2
    rw [List.foldl_cons]
    by_cases hcond : st.1 (point + d) = opponent color ∧
        st.1 (point + d + d) = opponent color ∧
        (st.1 (point + d + d + d) = color ∨ st.1 (point + d + d + d) = BORDER)
    · have hstep : play455Step point color st d =
          (fun q => if q = point + d ∨ q = point + d + d then EMPTY else st.1 q,
            st.2 ++ [(point + d, st.1 (point + d)),
              (point + d + d, st.1 (point + d + d))]) := by
        simp only [play455Step, if_pos hcond]
      rw [hstep]
      obtain ⟨hn1, hn2, _⟩ := hcond
      have hn1rec : point + d ∉ st.2.map Prod.fst := by
        intro hmem
        rw [(h1 (point + d)).2 hmem] at hn1
        exact hoE hn1.symm
      have hn2rec : point + d + d ∉ st.2.map Prod.fst := by
        intro hmem
        rw [(h1 (point + d + d)).2 hmem] at hn2
        exact hoE hn2.symm
      have hg1n1 : g1 (point + d) = opponent color := by
        rw [← (h1 (point + d)).1 hn1rec]
        exact hn1
      have hg1n2 : g1 (point + d + d) = opponent color := by
        rw [← (h1 (point + d + d)).1 hn2rec]
        exact hn2
      have hn1p : point + d ≠ point := by
        intro h
        rw [h, hg1] at hg1n1
        exact hcop hg1n1
      have hn2p : point + d + d ≠ point := by
        intro h
        rw [h, hg1] at hg1n2
        exact hcop hg1n2
      apply ih
      · intro q
        constructor
        · intro hq
          simp only [List.map_append, List.map_cons, List.map_nil,
            List.mem_append, List.mem_cons, List.mem_singleton,
            List.not_mem_nil] at hq
          push_neg at hq
          obtain ⟨hqold, hq1, hq2⟩ := hq
          have hq2' : ¬(q = point + d + d ∨ q ∈ ([] : List ℤ)) := by
            rcases hq2 with ⟨ha, hb⟩
            intro h
            rcases h with h | h
            · exact ha h
            · cases h
          simp only []
          rw [if_neg (by tauto : ¬(q = point + d ∨ q = point + d + d))]
          exact (h1 q).1 hqold
        · intro hq
          simp only [List.map_append, List.map_cons, List.map_nil,
            List.mem_append, List.mem_cons, List.mem_singleton,
            List.not_mem_nil, or_false] at hq
          by_cases hq12 : q = point + d ∨ q = point + d + d
          · simp only []
            rw [if_pos hq12]
          · simp only []
            rw [if_neg hq12]
            rcases hq with hq | hq | hq
            · exact (h1 q).2 hq
            · exact absurd (Or.inl hq) hq12
            · exact absurd (Or.inr hq) hq12
      · intro pc hpc
        rcases List.mem_append.mp hpc with h | h
        · exact h2 pc h
        · simp only [List.mem_cons, List.mem_singleton, List.not_mem_nil,
            or_false] at h
          rcases h with rfl | rfl
          · exact ⟨hn1p, by rw [← (h1 (point + d)).1 hn1rec],
              by rw [hn1]⟩
          · exact ⟨hn2p, by rw [← (h1 (point + d + d)).1 hn2rec],
              by rw [hn2]⟩
    · have hstep : play455Step point color st d = st := by
        simp only [play455Step, if_neg hcond]
      rw [hstep]
      exact ih st h1 h2

/-- Unfolding of `undo` on a board whose history is a literal cons. -/
theorem Board455.undo_cons (size : Nat) (grid : ℤ → Nat) (cur : Nat)
    (capB capW : Nat) (rec : Rec455) (rest : List Rec455)
    (lineFn : (ℤ → Nat) → Nat) :
    (Board455.mk size grid cur capB capW (rec :: rest) lineFn).undo =
      Board455.mk size
        (fun q =>
          if q = rec.point then EMPTY
          else
            match rec.captured.find? (fun pc => pc.1 == q) with
            | some pc => pc.2
            | none => grid q)
        rec.color
        (if rec.color = BLACK then capB - rec.delta else capB)
        (if rec.color = WHITE then capW - rec.delta else capW)
        rest lineFn := rfl

/-- Round trip: undoing a just-played legal move restores the board exactly
(grid, scores, current player, history). -/
theorem play_undo (b : Board455) (p : ℤ) (c : Nat)
    (hc : c = BLACK ∨ c = WHITE) (hcur : b.currentPlayer = c)
    (hp : b.grid p = EMPTY) :
    (b.play_move p c).1.undo = b := by
  obtain ⟨hcE, hoE, hcop⟩ := playing_color_facts hc
  set RES := (a1directions b.NS).foldl (play455Step p c)
    ((fun q => if q = p then c else b.grid q), []) with hRES
  have hplayed : (b.play_move p c).1 =
      Board455.mk b.size RES.1 (opponent c)
        (if c = BLACK then b.capB + RES.2.length else b.capB)
        (if c = WHITE then b.capW + RES.2.length else b.capW)
        (Rec455.mk p c RES.2 RES.2.length :: b.history)
        b.lineFn := by
    rw [hRES, Board455.play_move, if_pos hp]
  obtain ⟨hA, hB⟩ := play455_fold_inv p c hc
    (fun q => if q = p then c else b.grid q) (by simp) (a1directions b.NS)
    ((fun q => if q = p then c else b.grid q), [])
    (by
      intro q
      refine ⟨fun _ => rfl, fun h => ?_⟩
      simp at h)
    (by intro pc h; cases h)
  rw [← hRES] at hA hB
  clear_value RES
  rw [hplayed, Board455.undo_cons]
  show Board455.mk b.size
      (fun q =>
        if q = p then EMPTY
        else
          match RES.2.find? (fun pc => pc.1 == q) with
          | some pc => pc.2
          | none => RES.1 q)
      c
      (if c = BLACK then
        (if c = BLACK then b.capB + RES.2.length else b.capB) - RES.2.length
        else (if c = BLACK then b.capB + RES.2.length else b.capB))
      (if c = WHITE then
        (if c = WHITE then b.capW + RES.2.length else b.capW) - RES.2.length
        else (if c = WHITE then b.capW + RES.2.length else b.capW))
      b.history b.lineFn = b
  have hgrid : (fun q =>
      if q = p then EMPTY
      else
        match RES.2.find? (fun pc => pc.1 == q) with
        | some pc => pc.2
        | none => RES.1 q) = b.grid := by
    funext q
    by_cases hq : q = p
    · subst hq
      rw [if_pos rfl]
      exact hp.symm
    · rw [if_neg hq]
      cases hfind : (RES.2.find? (fun pc => pc.1 == q)) with
      | some pc =>
        have hpcmem := List.mem_of_find?_eq_some hfind
        have hpq : pc.1 = q := by
          have := List.find?_some hfind
          simpa using this
        obtain ⟨_, hprior, _⟩ := hB pc hpcmem
        show pc.2 = b.grid q
        rw [hprior, hpq, if_neg hq]
      | none =>
        have hnot : q ∉ RES.2.map Prod.fst := by
          intro hmem
          rw [List.find?_eq_none] at hfind
          obtain ⟨pc, hpc, hfst⟩ := List.mem_map.mp hmem
          have hcontra := hfind pc hpc
          rw [hfst] at hcontra
          exact hcontra (beq_self_eq_true q)
        show RES.1 q = b.grid q
        rw [(hA q).1 hnot, if_neg hq]
  have hcb : (if c = BLACK then
      (if c = BLACK then b.capB + RES.2.length else b.capB) - RES.2.length
      else (if c = BLACK then b.capB + RES.2.length else b.capB)) = b.capB := by
    rcases hc with rfl | rfl
    · rw [if_pos rfl, if_pos rfl]
      omega
    · rw [if_neg (by decide), if_neg (by decide)]
  have hcw : (if c = WHITE then
      (if c = WHITE then b.capW + RES.2.length else b.capW) - RES.2.length
      else (if c = WHITE then b.capW + RES.2.length else b.capW)) = b.capW := by
    rcases hc with rfl | rfl
    · rw [if_neg (by decide), if_neg (by decide)]
    · rw [if_pos rfl, if_pos rfl]
      omega
  rw [hgrid, hcb, hcw, ← hcur]

/-! ### The solver instantiated at the modelled board -/

/-- Membership in `get_empty_points` means a playable point that is Empty. -/
theorem mem_get_empty_points (b : Board455) (m : ℤ) (h : m ∈ b.get_empty_points) :
    m ∈ pointsList b.size ∧ b.grid m = EMPTY := by
  unfold Board455.get_empty_points at h
  obtain ⟨h1, h2⟩ := List.mem_filter.mp h
  exact ⟨h1, by simpa using h2⟩

/-- `play_move` never changes the board size or the winning-line rule. -/
theorem play_move_size (b : Board455) (p : ℤ) (c : Nat) :
    ((b.play_move p c).1).size = b.size ∧
    ((b.play_move p c).1).lineFn = b.lineFn := by
  rw [Board455.play_move]
  split
  · exact ⟨rfl, rfl⟩
  · exact ⟨rfl, rfl⟩

/-- On a legal (Empty) point, `play_move` hands the turn to the opponent. -/
theorem play_move_player (b : Board455) (p : ℤ) (c : Nat)
    (hp : b.grid p = EMPTY) :
    ((b.play_move p c).1).currentPlayer = opponent c := by
  rw [Board455.play_move, if_pos hp]

/-- Modelled from the spec: the board operations `alpha_beta` consumes
(§3, §4.1; `board.py` absent from `src/`) — legal moves are the empty
points, and a move is played for the board's current player, exactly as in
`self.board.play_move(move, self.board.current_player)`. -/
def ops455 : GameOps Board455 ℤ where
  isTerminal := Board455.is_terminal
  currentPlayer := Board455.currentPlayer
  legalMoves := Board455.get_empty_points
  playMove := fun b m => (b.play_move m b.currentPlayer).1
  undoMove := Board455.undo

/-- The state invariant of the solver's board: the player to move is an
actual player, and the size is fixed. -/
def Inv455 (n : Nat) (b : Board455) : Prop :=
  (b.currentPlayer = BLACK ∨ b.currentPlayer = WHITE) ∧ b.size = n

theorem ops455_play_inv (n : Nat) (b : Board455) (m : ℤ) (h : Inv455 n b)
    (hm : m ∈ b.get_empty_points) :
    Inv455 n ((b.play_move m b.currentPlayer).1) := by
  obtain ⟨hP, hS⟩ := h
  refine ⟨?_, ((play_move_size b m b.currentPlayer).1).trans hS⟩
  rw [play_move_player b m b.currentPlayer (mem_get_empty_points b m hm).2]
  rcases hP with h1 | h1 <;> rw [h1]
  · exact Or.inr rfl
  · exact Or.inl rfl

theorem ops455_undo (n : Nat) (b : Board455) (m : ℤ) (h : Inv455 n b)
    (hm : m ∈ b.get_empty_points) :
    ((b.play_move m b.currentPlayer).1).undo = b :=
  play_undo b m b.currentPlayer h.1 rfl (mem_get_empty_points b m hm).2

theorem ops455_moves_mem (n : Nat) (b : Board455) (h : Inv455 n b) :
    ∀ m ∈ b.get_empty_points, m ∈ pointsList n := by
  intro m hm
  have := (mem_get_empty_points b m hm).1
  rwa [h.2] at this

/-- Frame theorem for the iterative-deepening loop: whenever it returns a
result, the board inside it is exactly the board the loop started from and
the best move stays inside the class `P`. -/
theorem solveLoop_frame {S M : Type} (G : GameOps S M) (oracle : Nat → Bool)
    (shuffle : List M → List M) (Inv : S → Prop) (P : M → Prop)
    (hplay : ∀ s m, Inv s → m ∈ G.legalMoves s → Inv (G.playMove s m))
    (hundo : ∀ s m, Inv s → m ∈ G.legalMoves s → G.undoMove (G.playMove s m) = s)
    (hmovesP : ∀ s, Inv s → ∀ m ∈ G.legalMoves s, P m)
    (hshuf : ∀ (l : List M) (x : M), x ∈ shuffle l → x ∈ l) :
    ∀ (it maxDepth : Nat) (s : S) (clk : Nat) (best : M) (r : ABOut S M),
      Inv s → P best →
      solveLoop G oracle shuffle it maxDepth s clk best = some r →
      r.board = s ∧ P r.best := by
  intro it
  induction it with
  | zero =>
    intro maxDepth s clk best r _ _ h
    exact absurd h (by simp [solveLoop])
  | succ it ih =>
    intro maxDepth s clk best r hs hb h
    simp only [solveLoop] at h
    obtain ⟨hboard, hbest⟩ := alphaBeta_frame G oracle shuffle Inv P hplay hundo
      hmovesP hshuf maxDepth 0 (-1) 1 s clk best hs hb
    by_cases hc : (!(alphaBeta G oracle shuffle maxDepth 0 (-1) 1 s clk best).solved &&
        !(alphaBeta G oracle shuffle maxDepth 0 (-1) 1 s clk best).timedOut) = true
    · rw [if_pos hc] at h
      rw [hboard] at h
      exact ih _ s _ _ r hs hbest h
    · rw [if_neg hc] at h
      injection h with h
      subst h
      exact ⟨hboard, hbest⟩

/-! ### Coordinate formatting (`gtp_connection.py`, lines 506–531) -/

/-- Modelled from the spec: the `PASS` sentinel of `board_base` (absent from
`src/`) — an int distinct from every playable array index. -/
def PASS : ℤ := -1

/-- `point_to_coord(point, boardsize)` (lines 506–516): `divmod(point, NS)`
with `NS = boardsize + 1`; Python's `divmod` is the floor pair, which for
the positive divisor `NS` is Euclidean division. -/
def point_to_coord (point : ℤ) (boardsize : Nat) : ℤ × ℤ :=
  if point = PASS then (PASS, PASS)
  else (point.ediv ((boardsize : ℤ) + 1), point.emod ((boardsize : ℤ) + 1))

/-- The column letter table of `format_point` (line 524, skipping I). -/
def column_letters : List Char :=
  ['A', 'B', 'C', 'D', 'E', 'F', 'G', 'H', 'J', 'K', 'L', 'M', 'N',
   'O', 'P', 'Q', 'R', 'S', 'T', 'U', 'V', 'W', 'X', 'Y', 'Z']

/-- Python list indexing `l[i]`: negative indices count from the end;
out-of-range raises (`none`). -/
def pyIndex (l : List Char) (i : ℤ) : Option Char :=
  if 0 ≤ i then l[i.toNat]?
  else if 0 ≤ (l.length : ℤ) + i then l[((l.length : ℤ) + i).toNat]?
  else none

/-- Decimal digits of a natural number, `str(n)` for `n ≥ 0` (fuelled). -/
def natDigitsAux : Nat → Nat → List Char
  | 0, _ => []
  | fuel + 1, n =>
    if n < 10 then [Char.ofNat (48 + n)]
    else natDigitsAux fuel (n / 10) ++ [Char.ofNat (48 + n % 10)]

def natDigits (n : Nat) : List Char := natDigitsAux (n + 1) n

/-- `str.lower()` on one character (ASCII, as produced here). -/
def pyCharLower (c : Char) : Char :=
  if 65 ≤ c.toNat ∧ c.toNat ≤ 90 then Char.ofNat (c.toNat + 32) else c

/-- `str.lower()`. -/
def pyLower (s : String) : String := String.mk (s.data.map pyCharLower)

/-- `format_point(move)` (lines 519–531): `"PASS"` for a pass row, a
`ValueError` (`none`) outside `0 ≤ row, col < MAXSIZE = 25` (per
`board_base`, absent), else `column_letters[col - 1] + str(row)` — note the
Python negative index when `col = 0`. -/
def format_point : ℤ × ℤ → Option String
  | (row, col) =>
    if row = PASS then some ("PASS")
    else if 0 ≤ row ∧ row < 25 ∧ 0 ≤ col ∧ col < 25 then
      match pyIndex column_letters (col - 1) with
      | some ch => some (String.mk (ch :: natDigits row.toNat))
      | none => none
    else none

/-- `format_point(point_to_coord(p, size)).lower()`, as returned by
`get_move` and `solve_board`. -/
def formatPointLower (p : ℤ) (size : Nat) : Option String :=
  (format_point (point_to_coord p size)).map pyLower

/-- Every character `natDigitsAux` emits is an ASCII digit. -/
theorem natDigitsAux_digit :
    ∀ (fuel n : Nat), ∀ c ∈ natDigitsAux fuel n,
      48 ≤ c.toNat ∧ c.toNat ≤ 57 := by
  intro fuel
  induction fuel with
  | zero => intro n c hc; cases hc
  | succ fuel ih =>
    intro n c hc
    simp only [natDigitsAux] at hc
    by_cases hn : n < 10
    · rw [if_pos hn] at hc
      rcases List.mem_singleton.mp hc with rfl
      revert hn
      generalize n = k
      intro hk
      interval_cases k <;> exact ⟨by decide, by decide⟩
    · rw [if_neg hn] at hc
      rcases List.mem_append.mp hc with h | h
      · exact ih _ c h
      · rcases List.mem_singleton.mp h with rfl
        have hk : n % 10 < 10 := Nat.mod_lt _ (by norm_num)
        revert hk
        generalize n % 10 = k
        intro hk
        interval_cases k <;> exact ⟨by decide, by decide⟩

/-- Lowercasing fixes ASCII digits. -/
theorem pyCharLower_digit (c : Char) (h : 48 ≤ c.toNat ∧ c.toNat ≤ 57) :
    pyCharLower c = c := by
  unfold pyCharLower
  rw [if_neg]
  omega

/-- A letter followed by decimal digits never lowercases to `"pass"`. -/
theorem format_lower_ne_pass (ch : Char) (n : Nat) :
    pyLower (String.mk (ch :: natDigits n)) ≠ "pass" := by
  intro h
  unfold pyLower at h
  have hpass : "pass" = String.mk (['p', 'a', 's', 's']) := rfl
  rw [hpass] at h
  have hdata : List.map pyCharLower (ch :: natDigits n) = ['p', 'a', 's', 's'] := by
    injection h
  rw [List.map_cons] at hdata
  have htail : List.map pyCharLower (natDigits n) = ['a', 's', 's'] :=
    (List.cons.injEq _ _ _ _ ▸ hdata).2
  have hmem : 'a' ∈ List.map pyCharLower (natDigits n) := by
    rw [htail]
    exact List.mem_cons_self _ _
  obtain ⟨c, hc, hlc⟩ := List.mem_map.mp hmem
  have hd := natDigitsAux_digit _ _ c hc
  rw [pyCharLower_digit c hd] at hlc
  rw [hlc] at hd
  exact absurd hd.2 (by decide)

/-- Every playable point has a positive array index. -/
theorem pointsList_pos (size : Nat) (p : ℤ) (h : p ∈ pointsList size) :
    0 < p := by
  unfold pointsList at h
  obtain ⟨r, hr, hp⟩ := List.mem_flatMap.mp h
  obtain ⟨c, hc, rfl⟩ := List.mem_map.mp hp
  have h1 : (0 : ℤ) < ((r : ℤ) + 1) * ((size : ℤ) + 1) := by positivity
  have h2 : (0 : ℤ) ≤ (c : ℤ) := by positivity
  linarith

/-- Formatting a playable point, lowercased, never yields `"pass"` — the
first character is a column letter and the rest are the digits of a
nonnegative row. -/
theorem formatPointLower_ne_pass (p : ℤ) (size : Nat) (hp : 0 < p) :
    ∀ s, formatPointLower p size = some s → s ≠ "pass" := by
  intro s hs
  unfold formatPointLower point_to_coord at hs
  rw [if_neg (by unfold PASS; omega)] at hs
  simp only [format_point] at hs
  have hrow : 0 ≤ p.ediv ((size : ℤ) + 1) :=
    Int.ediv_nonneg (le_of_lt hp) (by positivity)
  rw [if_neg (show ¬(p.ediv ((size : ℤ) + 1) = PASS) by unfold PASS; omega)] at hs
  by_cases hb : 0 ≤ p.ediv ((size : ℤ) + 1) ∧ p.ediv ((size : ℤ) + 1) < 25 ∧
      0 ≤ p.emod ((size : ℤ) + 1) ∧ p.emod ((size : ℤ) + 1) < 25
  · rw [if_pos hb] at hs
    cases hpi : pyIndex column_letters (p.emod ((size : ℤ) + 1) - 1) with
    | none => rw [hpi] at hs; simp at hs
    | some ch =>
      rw [hpi] at hs
      simp only [Option.map_some] at hs
      injection hs with hs
      rw [← hs]
      exact format_lower_ne_pass ch _
  · rw [if_neg hb] at hs
    simp at hs

/-! ### `solve_board` and `get_move` (lines 36–145) -/

/-- Modelled from the spec: `get_potential_moves` — the empty playable
points adjacent, in one of the eight directions, to an existing stone
(spec: "points adjacent to existing stones, a cheap superset"). -/
def Board455.get_potential_moves (b : Board455) : List ℤ :=
  (pointsList b.size).filter (fun p => b.grid p == EMPTY &&
    (a1directions b.NS).any
      (fun d => b.grid (p + d) == BLACK || b.grid (p + d) == WHITE))

/-- One step of the tier classification of `rule` (lines 137–140):
`moves[result].append(move)` for `result` in 1–3. -/
def ruleStep (analyze : Board455 → ℤ → Nat) (b : Board455)
    (acc : List ℤ × List ℤ × List ℤ) (mv : ℤ) : List ℤ × List ℤ × List ℤ :=
  if analyze b mv = 1 then (acc.1 ++ [mv], acc.2.1, acc.2.2)
  else if analyze b mv = 2 then (acc.1, acc.2.1 ++ [mv], acc.2.2)
  else if analyze b mv = 3 then (acc.1, acc.2.1, acc.2.2 ++ [mv])
  else acc

/-- `A4SubmissionPlayer.rule` (lines 134–145): classify every potential
move into priority tiers with the board's `analyze` (absent from `src/`,
kept as an explicit parameter) and return the first move of
`moves[1] + moves[2] + moves[3]`, or `None`. -/
def rule455 (analyze : Board455 → ℤ → Nat) (b : Board455) : Option ℤ :=
  let tiers := b.get_potential_moves.foldl (ruleStep analyze b) ([], [], [])
  (tiers.1 ++ tiers.2.1 ++ tiers.2.2).head?

/-- The classification fold only accumulates moves it was given. -/
theorem ruleFold_mem (analyze : Board455 → ℤ → Nat) (b : Board455) :
    ∀ (l : List ℤ) (acc : List ℤ × List ℤ × List ℤ) (y : ℤ),
      (y ∈ (l.foldl (ruleStep analyze b) acc).1 ∨
       y ∈ (l.foldl (ruleStep analyze b) acc).2.1 ∨
       y ∈ (l.foldl (ruleStep analyze b) acc).2.2) →
      (y ∈ acc.1 ∨ y ∈ acc.2.1 ∨ y ∈ acc.2.2) ∨ y ∈ l := by
  intro l
  induction l with
  | nil => intro acc y h; exact Or.inl h
  | cons m l ih =>
    intro acc y h
    rw [List.foldl_cons] at h
    rcases ih (ruleStep analyze b acc m) y h with h' | h'
    · unfold ruleStep at h'
      by_cases h1 : analyze b m = 1
      · rw [if_pos h1] at h'
        rcases h' with h' | h' | h'
        · rcases List.mem_append.mp h' with h'' | h''
          · exact Or.inl (Or.inl h'')
          · exact Or.inr (List.mem_cons.mpr (Or.inl (List.mem_singleton.mp h'')))
        · exact Or.inl (Or.inr (Or.inl h'))
        · exact Or.inl (Or.inr (Or.inr h'))
      · rw [if_neg h1] at h'
        by_cases h2 : analyze b m = 2
        · rw [if_pos h2] at h'
          rcases h' with h' | h' | h'
          · exact Or.inl (Or.inl h')
          · rcases List.mem_append.mp h' with h'' | h''
            · exact Or.inl (Or.inr (Or.inl h''))
            · exact Or.inr (List.mem_cons.mpr (Or.inl (List.mem_singleton.mp h'')))
          · exact Or.inl (Or.inr (Or.inr h'))
        · rw [if_neg h2] at h'
          by_cases h3 : analyze b m = 3
          · rw [if_pos h3] at h'
            rcases h' with h' | h' | h'
            · exact Or.inl (Or.inl h')
            · exact Or.inl (Or.inr (Or.inl h'))
            · rcases List.mem_append.mp h' with h'' | h''
              · exact Or.inl (Or.inr (Or.inr h''))
              · exact Or.inr (List.mem_cons.mpr (Or.inl (List.mem_singleton.mp h'')))
          · rw [if_neg h3] at h'
            exact Or.inl h'
    · exact Or.inr (List.mem_cons_of_mem m h')

/-- A move returned by `rule` is one of the board's potential moves. -/
theorem rule455_mem (analyze : Board455 → ℤ → Nat) (b : Board455) (x : ℤ)
    (h : rule455 analyze b = some x) : x ∈ b.get_potential_moves := by
  unfold rule455 at h
  have h' : ((b.get_potential_moves.foldl (ruleStep analyze b) ([], [], [])).1 ++
      (b.get_potential_moves.foldl (ruleStep analyze b) ([], [], [])).2.1 ++
      (b.get_potential_moves.foldl (ruleStep analyze b) ([], [], [])).2.2).head? =
      some x := h
  have hmem : x ∈ (b.get_potential_moves.foldl (ruleStep analyze b) ([], [], [])).1 ++
      (b.get_potential_moves.foldl (ruleStep analyze b) ([], [], [])).2.1 ++
      (b.get_potential_moves.foldl (ruleStep analyze b) ([], [], [])).2.2 := by
    cases hc : (b.get_potential_moves.foldl (ruleStep analyze b) ([], [], [])).1 ++
        (b.get_potential_moves.foldl (ruleStep analyze b) ([], [], [])).2.1 ++
        (b.get_potential_moves.foldl (ruleStep analyze b) ([], [], [])).2.2 with
    | nil => rw [hc] at h'; exact absurd h' (by simp)
    | cons a t =>
      rw [hc] at h'
      injection h' with h''
      rw [← h'']
      exact List.mem_cons_self _ _
  rcases List.mem_append.mp hmem with hm | hm
  · rcases List.mem_append.mp hm with hm' | hm'
    · rcases ruleFold_mem analyze b _ _ _ (Or.inl hm') with h' | h'
      · rcases h' with h' | h' | h' <;> cases h'
      · exact h'
    · rcases ruleFold_mem analyze b _ _ _ (Or.inr (Or.inl hm')) with h' | h'
      · rcases h' with h' | h' | h' <;> cases h'
      · exact h'
  · rcases ruleFold_mem analyze b _ _ _ (Or.inr (Or.inr hm)) with h' | h'
    · rcases h' with h' | h' | h' <;> cases h'
    · exact h'

/-- A potential move is a playable point. -/
theorem get_potential_moves_mem (b : Board455) (x : ℤ)
    (h : x ∈ b.get_potential_moves) : x ∈ pointsList b.size :=
  (List.mem_filter.mp h).1

/-- The `(winner, move)` answer of `solve_board` together with the solver
state it leaves behind: `self.best_move` and `self.board`.  The move part
of the answer is an `Option String`, `none` covering both Python's `None`
and a formatting error. -/
structure SolveOut where
  answer : String × Option String
  best : ℤ
  board : Board455

/-- `A4SubmissionPlayer.solve_board(board)` (lines 94–132): copy the board,
initialize `best_move` to `PASS` or the first empty point, short-circuit
through `rule`, else iterate `alpha_beta(-1, 1, 0)` at increasing
`max_depth` until solved or timed out; on timeout answer `board.check()`
(the absent board-only method, an explicit parameter `check`), else report
win/loss/draw for the side to move.  `none` models the unbounded `while`
loop outrunning its fuel. -/
def solveBoardWith (check : Board455 → String × Option String)
    (analyze : Board455 → ℤ → Nat) (oracle : Nat → Bool)
    (shuffle : List ℤ → List ℤ) (loopFuel : Nat) (b : Board455) :
    Option SolveOut :=
  match rule455 analyze b.copy with
  | some x =>
    some ⟨(if (b.copy).currentPlayer = BLACK then "b" else "w",
        formatPointLower x (b.copy).size), x, b.copy⟩
  | none =>
    match solveLoop ops455 oracle shuffle loopFuel 1 b.copy 0
        (if (b.copy).get_empty_points.length = 0 then PASS
         else (b.copy).get_empty_points.headD PASS) with
    | none => none
    | some r =>
      if r.timedOut then some ⟨check r.board, r.best, r.board⟩
      else if r.value = 1 then
        some ⟨(if r.board.currentPlayer = BLACK then "b" else "w",
            formatPointLower r.best r.board.size), r.best, r.board⟩
      else if r.value = -1 then
        some ⟨(if r.board.currentPlayer = BLACK then "w" else "b", none),
          r.best, r.board⟩
      else
        some ⟨("draw", formatPointLower r.best r.board.size), r.best, r.board⟩

/-- The color test of `get_move` (lines 39–42): `current_player` becomes
`WHITE` exactly when `color == 'w'`, else `BLACK`. -/
def getMoveColorSelect (color : PyVal) : Nat :=
  if pyEq color (PyVal.str ("w")) then WHITE else BLACK

/-- `A4SubmissionPlayer.get_move(board, color)` (lines 36–45): `"pass"` on
a board with no empty points; otherwise set the current player by the
`color == 'w'` test, run `solve_board`, and return
`format_point(point_to_coord(self.best_move, self.board.size)).lower()`.
`none` models an uncaught exception or the unbounded solve loop. -/
def getMove (check : Board455 → String × Option String)
    (analyze : Board455 → ℤ → Nat) (oracle : Nat → Bool)
    (shuffle : List ℤ → List ℤ) (loopFuel : Nat) (b : Board455)
    (color : PyVal) : Option String :=
  if b.get_empty_points.length = 0 then some ("pass")
  else
    match solveBoardWith check analyze oracle shuffle loopFuel
        { b with currentPlayer := getMoveColorSelect color } with
    | none => none
    | some r => formatPointLower r.best r.board.size

/-- An empty 3×3 board, Black to move, no captures, trivial line rule. -/
def demoB3E : Board455 :=
  ⟨3, fun _ => EMPTY, BLACK, 0, 0, [], fun _ => EMPTY⟩

/-- A completely filled 2×2 board (every playable point Black). -/
def demoFull : Board455 :=
  ⟨2, fun _ => BLACK, BLACK, 0, 0, [], fun _ => EMPTY⟩

/-- What `solve_board` leaves behind: the board inside the returned state is
exactly the copy it started from, and when the board has empty points the
stored best move is a playable point. -/
theorem solveBoardWith_out (check : Board455 → String × Option String)
    (analyze : Board455 → ℤ → Nat) (oracle : Nat → Bool)
    (shuffle : List ℤ → List ℤ)
    (hshuf : ∀ (l : List ℤ) (x : ℤ), x ∈ shuffle l → x ∈ l)
    (loopFuel : Nat) (b : Board455)
    (hcur : b.currentPlayer = BLACK ∨ b.currentPlayer = WHITE) :
    ∀ r, solveBoardWith check analyze oracle shuffle loopFuel b = some r →
      r.board = b.copy ∧
      (b.get_empty_points ≠ [] → r.best ∈ pointsList b.size) := by
  intro r h
  unfold solveBoardWith at h
  split at h
  · rename_i x hrule
    injection h with h
    subst h
    refine ⟨rfl, fun _ => ?_⟩
    have hx := get_potential_moves_mem b.copy x (rule455_mem analyze b.copy x hrule)
    exact hx
  · rename_i hrule
    split at h
    · exact absurd h (by simp)
    · rename_i rr hloop
      have hP0 : b.get_empty_points = [] ∨
          (if (b.copy).get_empty_points.length = 0 then PASS
           else (b.copy).get_empty_points.headD PASS) ∈ pointsList b.size := by
        by_cases hz : (b.copy).get_empty_points.length = 0
        · rw [if_pos hz]
          exact Or.inl (List.length_eq_zero.mp hz)
        · rw [if_neg hz]
          refine Or.inr ?_
          have hne : (b.copy).get_empty_points ≠ [] := by
            intro hh
            exact hz (by rw [hh]; rfl)
          have hmem : (b.copy).get_empty_points.headD PASS ∈
              (b.copy).get_empty_points := by
            cases hc : (b.copy).get_empty_points with
            | nil => exact absurd hc hne
            | cons a t => simp
          exact ops455_moves_mem b.size b.copy ⟨hcur, rfl⟩ _ hmem
      obtain ⟨hboard, hbestP⟩ := solveLoop_frame ops455 oracle shuffle
        (Inv455 b.size) (fun m => b.get_empty_points = [] ∨ m ∈ pointsList b.size)
        (fun s m hs hm => ops455_play_inv b.size s m hs hm)
        (fun s m hs hm => ops455_undo b.size s m hs hm)
        (fun s hs m hm => Or.inr (ops455_moves_mem b.size s hs m hm))
        hshuf loopFuel 1 b.copy 0 _ rr ⟨hcur, rfl⟩ hP0 hloop
      by_cases hTO : rr.timedOut = true
      · rw [if_pos hTO] at h
        injection h with h
        subst h
        exact ⟨hboard, fun hne => hbestP.resolve_left hne⟩
      · rw [if_neg hTO] at h
        by_cases hv1 : rr.value = 1
        · rw [if_pos hv1] at h
          injection h with h
          subst h
          exact ⟨hboard, fun hne => hbestP.resolve_left hne⟩
        · rw [if_neg hv1] at h
          by_cases hv2 : rr.value = -1
          · rw [if_pos hv2] at h
            injection h with h
            subst h
            exact ⟨hboard, fun hne => hbestP.resolve_left hne⟩
          · rw [if_neg hv2] at h
            injection h with h
            subst h
            exact ⟨hboard, fun hne => hbestP.resolve_left hne⟩

/-- Claim C5: the Solver never mutates the caller's board.  (1) Every
`alpha_beta` call — on every return path: terminal, depth-limited, solved,
beta cutoff, or timeout anywhere in the subtree — hands `self.board` back
exactly as it received it, so every exploratory `play_move` has a matching
`undo`.  (2) Every `solve_board` return (rule shortcut, solved, or timeout)
leaves the solver's board equal to the copy it made, whose grid, capture
counts, current player and size are the caller's pre-call values. -/
theorem solver_preserves_board (check : Board455 → String × Option String)
    (analyze : Board455 → ℤ → Nat) (oracle : Nat → Bool)
    (shuffle : List ℤ → List ℤ)
    (hshuf : ∀ (l : List ℤ) (x : ℤ), x ∈ shuffle l → x ∈ l)
    (b : Board455)
    (hcur : b.currentPlayer = BLACK ∨ b.currentPlayer = WHITE) :
    (∀ (fuel depth : Nat) (alpha beta : Int) (clk : Nat) (best : ℤ),
      (alphaBeta ops455 oracle shuffle fuel depth alpha beta b clk best).board
        = b) ∧
    (∀ (loopFuel : Nat) (r : SolveOut),
      solveBoardWith check analyze oracle shuffle loopFuel b = some r →
      r.board.grid = b.grid ∧ r.board.capB = b.capB ∧ r.board.capW = b.capW ∧
      r.board.currentPlayer = b.currentPlayer ∧ r.board.size = b.size) := by
  constructor
  · intro fuel depth alpha beta clk best
    exact (alphaBeta_frame ops455 oracle shuffle (Inv455 b.size)
      (fun _ => True)
      (fun s m hs hm => ops455_play_inv b.size s m hs hm)
      (fun s m hs hm => ops455_undo b.size s m hs hm)
      (fun s hs m hm => trivial) hshuf fuel depth alpha beta b clk best
      ⟨hcur, rfl⟩ trivial).1
  · intro loopFuel r h
    obtain ⟨hboard, _⟩ := solveBoardWith_out check analyze oracle shuffle
      hshuf loopFuel b hcur r h
    rw [hboard]
    exact ⟨rfl, rfl, rfl, rfl, rfl⟩

theorem solver_preserves_board_witness :
    (alphaBeta ops455 (fun _ => true) (fun l => l) 3 0 (-1) 1 demoB3E 0 0).board
      = demoB3E :=
  (solver_preserves_board (fun bd => (bd.result, none)) (fun _ _ => 0)
    (fun _ => true) (fun l => l) (fun _ _ hx => hx) demoB3E (Or.inl rfl)).1
    3 0 (-1) 1 0 0

/-- The color test of `get_move` always selects an actual player. -/
theorem getMoveColorSelect_mem (color : PyVal) :
    getMoveColorSelect color = BLACK ∨ getMoveColorSelect color = WHITE := by
  unfold getMoveColorSelect
  by_cases h : pyEq color (PyVal.str ("w")) = true
  · rw [if_pos h]
    exact Or.inr rfl
  · rw [if_neg h]
    exact Or.inl rfl

/-- Claim C9: `get_move` answers `"pass"` exactly on a board with no empty
points.  Forward: with no empty points the `"pass"` return fires for every
`check`, `analyze`, deadline oracle, shuffle and loop fuel — including zero
fuel, on which an invoked solve loop could only diverge — so no search is
consulted.  Converse: with an empty point available, any returned string is
`format_point` of a playable point, lowercased — a column letter followed
by decimal digits — never `"pass"`. -/
theorem get_move_pass_iff (check : Board455 → String × Option String)
    (analyze : Board455 → ℤ → Nat) (oracle : Nat → Bool)
    (shuffle : List ℤ → List ℤ)
    (hshuf : ∀ (l : List ℤ) (x : ℤ), x ∈ shuffle l → x ∈ l)
    (loopFuel : Nat) (b : Board455) (color : PyVal) :
    (b.get_empty_points = [] →
      getMove check analyze oracle shuffle loopFuel b color = some ("pass")) ∧
    (b.get_empty_points ≠ [] →
      ∀ s, getMove check analyze oracle shuffle loopFuel b color = some s →
        s ≠ "pass") := by
  constructor
  · intro h
    unfold getMove
    rw [if_pos (by rw [h]; rfl)]
  · intro hne s hs
    unfold getMove at hs
    rw [if_neg (fun hz => hne (List.length_eq_zero.mp hz))] at hs
    split at hs
    · exact absurd hs (by simp)
    · rename_i r heq
      obtain ⟨hboard, hbest⟩ := solveBoardWith_out check analyze oracle shuffle
        hshuf loopFuel { b with currentPlayer := getMoveColorSelect color }
        (getMoveColorSelect_mem color) r heq
      have hmem : r.best ∈ pointsList b.size := hbest hne
      exact formatPointLower_ne_pass r.best r.board.size
        (pointsList_pos b.size r.best hmem) s hs

theorem get_move_pass_iff_witness :
    getMove (fun bd => (bd.result, none)) (fun _ _ => 0) (fun _ => true)
        (fun l => l) 2 demoFull (PyVal.int 1) = some ("pass") ∧
    getMove (fun bd => (bd.result, none)) (fun _ _ => 0) (fun _ => true)
        (fun l => l) 2 demoB3E (PyVal.int 1) ≠ some ("pass") := by
  constructor
  · exact (get_move_pass_iff (fun bd => (bd.result, none)) (fun _ _ => 0)
      (fun _ => true) (fun l => l) (fun _ _ hx => hx) 2 demoFull
      (PyVal.int 1)).1 (by decide)
  · intro hcontra
    exact (get_move_pass_iff (fun bd => (bd.result, none)) (fun _ _ => 0)
      (fun _ => true) (fun l => l) (fun _ _ hx => hx) 2 demoB3E
      (PyVal.int 1)).2 (by decide) "pass" hcontra rfl

/-- Claim C10: in `get_move`, the test `color == 'w'` is `False` for every
integer color (an int never equals a string in Python), so an integer
request — including `WHITE = 2` — always sets `current_player = BLACK` and
the position is solved with Black to move; only the literal string `'w'`
selects White; consequently `get_move` cannot distinguish any two integer
color arguments. -/
theorem get_move_color_confusion :
    (∀ n : Nat, pyEq (PyVal.int n) (PyVal.str ("w")) = false) ∧
    (∀ n : Nat, getMoveColorSelect (PyVal.int n) = BLACK) ∧
    (∀ v : PyVal, getMoveColorSelect v = WHITE ↔ v = PyVal.str ("w")) ∧
    (∀ (check : Board455 → String × Option String)
        (analyze : Board455 → ℤ → Nat) (oracle : Nat → Bool)
        (shuffle : List ℤ → List ℤ) (loopFuel : Nat) (b : Board455)
        (n m : Nat),
      getMove check analyze oracle shuffle loopFuel b (PyVal.int n) =
        getMove check analyze oracle shuffle loopFuel b (PyVal.int m)) := by
  refine ⟨fun n => rfl, fun n => rfl, fun v => ?_, ?_⟩
  · constructor
    · intro h
      cases v with
      | int n => exact absurd h (by simp [getMoveColorSelect, pyEq, BLACK, WHITE])
      | str s =>
        unfold getMoveColorSelect pyEq at h
        by_cases hs : s = "w"
        · rw [hs]
        · rw [if_neg (by simpa using hs)] at h
          exact absurd h (by unfold BLACK WHITE; omega)
    · intro h
      subst h
      rfl
  · intro check analyze oracle shuffle loopFuel b n m
    unfold getMove
    rfl

/-! ### Claim C3: what `solve_board` returns on timeout -/

/-- An empty 2×2 board, Black to move, no captures, trivial line rule. -/
def demoB2E : Board455 :=
  ⟨2, fun _ => EMPTY, BLACK, 0, 0, [], fun _ => EMPTY⟩

/-- A deadline oracle that expires at the sixth sample: on the empty 2×2
board the first iteration (root entry plus four children) completes
unsolved, and the next iteration's root entry times out. -/
def tOracle : Nat → Bool := fun k => decide (5 ≤ k)

/-- On the timeout path (`rule` found nothing, the loop returned a
timed-out result), `solve_board` answers `self.board.check()` and keeps
the loop's best move only in the solver state. -/
theorem solveBoardWith_timeout_eq (check : Board455 → String × Option String)
    (analyze : Board455 → ℤ → Nat) (oracle : Nat → Bool)
    (shuffle : List ℤ → List ℤ) (loopFuel : Nat) (b : Board455)
    (best0 : ℤ) (rr : ABOut Board455 ℤ)
    (hrule : rule455 analyze b.copy = none)
    (hb0 : (if (b.copy).get_empty_points.length = 0 then PASS
        else (b.copy).get_empty_points.headD PASS) = best0)
    (hloop : solveLoop ops455 oracle shuffle loopFuel 1 b.copy 0 best0 =
      some rr)
    (hTO : rr.timedOut = true) :
    solveBoardWith check analyze oracle shuffle loopFuel b =
      some ⟨check rr.board, rr.best, rr.board⟩ := by
  unfold solveBoardWith
  rw [hrule, hb0, hloop]
  show (if rr.timedOut = true then
      some (⟨check rr.board, rr.best, rr.board⟩ : SolveOut)
    else if rr.value = 1 then
      some ⟨(if rr.board.currentPlayer = BLACK then "b" else "w",
          formatPointLower rr.best rr.board.size), rr.best, rr.board⟩
    else if rr.value = -1 then
      some ⟨(if rr.board.currentPlayer = BLACK then "w" else "b", none),
        rr.best, rr.board⟩
    else
      some ⟨("draw", formatPointLower rr.best rr.board.size), rr.best,
        rr.board⟩) = some ⟨check rr.board, rr.best, rr.board⟩
  rw [if_pos hTO]

/-- Claim C3 counterexample: on the empty 2×2 board, with the deadline
expiring right after the first (depth-1) iteration completes, two runs
differing only in the root shuffle store different best moves from that
completed iteration (4 and 8, the first and last empty point, formatting
to different coordinate strings), yet `solve_board` returns the identical
answer `self.board.check()` — a board-only query of the restored copy,
here `("unknown", no move)`; `solveBoardWith_timeout_eq` shows the same
for every `check` — so the returned answer is not the best move found in
the last completed iteration. -/
theorem solve_board_timeout_counterexample :
    (solveBoardWith Board455.check (fun _ _ => 0) tOracle (fun l => l) 2
        demoB2E).map
        (fun r => (r.answer, r.best)) =
      some (Board455.check demoB2E.copy, 4) ∧
    (solveBoardWith Board455.check (fun _ _ => 0) tOracle
        (fun l => List.reverse l) 2 demoB2E).map
        (fun r => (r.answer, r.best)) =
      some (Board455.check demoB2E.copy, 8) ∧
    formatPointLower 4 2 ≠ formatPointLower 8 2 ∧
    Board455.check demoB2E.copy = ("unknown", none) := by
  have hrule : rule455 (fun _ _ => 0) demoB2E.copy = none := rfl
  have hb0 : (if (demoB2E.copy).get_empty_points.length = 0 then PASS
      else (demoB2E.copy).get_empty_points.headD PASS) = 4 := rfl
  refine ⟨?_, ?_, by decide, by decide⟩
  · have hfact : (solveLoop ops455 tOracle (fun l => l) 2 1 demoB2E.copy 0 4).map
        (fun r => (r.timedOut, r.best)) = some (true, 4) := by decide
    cases hE : solveLoop ops455 tOracle (fun l => l) 2 1 demoB2E.copy 0 4 with
    | none => rw [hE] at hfact; exact absurd hfact (by simp)
    | some rr =>
      rw [hE] at hfact
      simp only [Option.map_some'] at hfact
      injection hfact with hfact
      have hTO : rr.timedOut = true := (Prod.mk.injEq _ _ _ _ ▸ hfact).1
      have hbest : rr.best = 4 := (Prod.mk.injEq _ _ _ _ ▸ hfact).2
      obtain ⟨hboard, _⟩ := solveLoop_frame ops455 tOracle (fun l => l)
        (Inv455 2) (fun _ => True)
        (fun s m hs hm => ops455_play_inv 2 s m hs hm)
        (fun s m hs hm => ops455_undo 2 s m hs hm)
        (fun s hs m hm => trivial) (fun _ _ hx => hx)
        2 1 demoB2E.copy 0 4 rr ⟨Or.inl rfl, rfl⟩ trivial hE
      rw [solveBoardWith_timeout_eq Board455.check (fun _ _ => 0) tOracle
        (fun l => l) 2 demoB2E 4 rr hrule hb0 hE hTO]
      rw [hboard, hbest]
      rfl
  · have hfact : (solveLoop ops455 tOracle (fun l => List.reverse l) 2 1
        demoB2E.copy 0 4).map
        (fun r => (r.timedOut, r.best)) = some (true, 8) := by decide
    cases hE : solveLoop ops455 tOracle (fun l => List.reverse l) 2 1
        demoB2E.copy 0 4 with
    | none => rw [hE] at hfact; exact absurd hfact (by simp)
    | some rr =>
      rw [hE] at hfact
      simp only [Option.map_some'] at hfact
      injection hfact with hfact
      have hTO : rr.timedOut = true := (Prod.mk.injEq _ _ _ _ ▸ hfact).1
      have hbest : rr.best = 8 := (Prod.mk.injEq _ _ _ _ ▸ hfact).2
      obtain ⟨hboard, _⟩ := solveLoop_frame ops455 tOracle (fun l => List.reverse l)
        (Inv455 2) (fun _ => True)
        (fun s m hs hm => ops455_play_inv 2 s m hs hm)
        (fun s m hs hm => ops455_undo 2 s m hs hm)
        (fun s hs m hm => trivial)
        (fun l x hx => by simpa using List.mem_reverse.mp (by simpa using hx))
        2 1 demoB2E.copy 0 4 rr ⟨Or.inl rfl, rfl⟩ trivial hE
      rw [solveBoardWith_timeout_eq Board455.check (fun _ _ => 0) tOracle
        (fun l => List.reverse l) 2 demoB2E 4 rr hrule hb0 hE hTO]
      rw [hboard, hbest]
      rfl

/-- Claim C3 (amended): when the deadline expires during iterative
deepening — the loop returning a timed-out result after `rule` found
nothing — `solve_board` returns `self.board.check()`, a board-only query
evaluated on the solver's restored copy of the caller's board; the best
move of the last completed iteration survives only in the solver state
(`self.best_move`, the `best` field here, which line 45 of `get_move`
formats instead of the answer), not in `solve_board`'s returned answer. -/
theorem solve_board_timeout_returns_check
    (check : Board455 → String × Option String)
    (analyze : Board455 → ℤ → Nat) (oracle : Nat → Bool)
    (shuffle : List ℤ → List ℤ)
    (hshuf : ∀ (l : List ℤ) (x : ℤ), x ∈ shuffle l → x ∈ l)
    (loopFuel : Nat) (b : Board455) (best0 : ℤ) (rr : ABOut Board455 ℤ)
    (hcur : b.currentPlayer = BLACK ∨ b.currentPlayer = WHITE)
    (hrule : rule455 analyze b.copy = none)
    (hb0 : (if (b.copy).get_empty_points.length = 0 then PASS
        else (b.copy).get_empty_points.headD PASS) = best0)
    (hloop : solveLoop ops455 oracle shuffle loopFuel 1 b.copy 0 best0 =
      some rr)
    (hTO : rr.timedOut = true) :
    solveBoardWith check analyze oracle shuffle loopFuel b =
      some ⟨check b.copy, rr.best, b.copy⟩ := by
  obtain ⟨hboard, _⟩ := solveLoop_frame ops455 oracle shuffle
    (Inv455 b.size) (fun _ => True)
    (fun s m hs hm => ops455_play_inv b.size s m hs hm)
    (fun s m hs hm => ops455_undo b.size s m hs hm)
    (fun s hs m hm => trivial) hshuf loopFuel 1 b.copy 0 best0 rr
    ⟨hcur, rfl⟩ trivial hloop
  rw [solveBoardWith_timeout_eq check analyze oracle shuffle loopFuel b
    best0 rr hrule hb0 hloop hTO, hboard]

theorem solve_board_timeout_returns_check_witness :
    (solveBoardWith Board455.check (fun _ _ => 0) tOracle (fun l => l) 2
        demoB2E).map (fun r => (r.answer, r.best)) =
      some ((demoB2E.copy.result, none), 4) := by
  have hfact : (solveLoop ops455 tOracle (fun l => l) 2 1 demoB2E.copy 0 4).map
      (fun r => (r.timedOut, r.best)) = some (true, 4) := by decide
  cases hE : solveLoop ops455 tOracle (fun l => l) 2 1 demoB2E.copy 0 4 with
  | none => rw [hE] at hfact; exact absurd hfact (by simp)
  | some rr =>
    rw [hE] at hfact
    simp only [Option.map_some'] at hfact
    injection hfact with hfact
    have hTO : rr.timedOut = true := (Prod.mk.injEq _ _ _ _ ▸ hfact).1
    have hbest : rr.best = 4 := (Prod.mk.injEq _ _ _ _ ▸ hfact).2
    rw [solve_board_timeout_returns_check Board455.check (fun _ _ => 0)
      tOracle (fun l => l) (fun _ _ hx => hx) 2 demoB2E 4 rr (Or.inl rfl)
      rfl rfl hE hTO, hbest]
    rfl

/-! ### Claim C6: the Rollout Player (`src/assignment3/Ninuki.py`, 39–89) -/

/-- Modelled from the spec: the state the Rollout Player reads — the empty
points (`state.get_empty_points()`) and the side to move
(`state.current_player`); `board.py` is absent from `src/`. -/
structure SimGame where
  emptyPoints : List ℤ
  currentPlayer : Nat

/-- `SimulationPlayer.simulate(state, move)` (lines 76–89): play `move` on
a deep copy, run `numSimulations` rollouts, tally winners and return
`(stats[BLACK] + 0.5 * stats[EMPTY]) / numSimulations`, complemented when
the side to move is White.  `winner k` is the outcome of the k-th rollout
overall (`c_state.simulation()` is absent from `src/`; its random playouts
are an oracle indexed by the count of rollouts consumed so far, mirroring
the sequentially consumed random stream), so the call also returns the
advanced rollout counter. -/
def simulate (numSim : Nat) (winner : Nat → Nat) (st : SimGame) (move : ℤ)
    (k : Nat) : ℚ × Nat :=
  let statsB := (List.range numSim).countP (fun i => winner (k + i) == BLACK)
  let statsE := (List.range numSim).countP (fun i => winner (k + i) == EMPTY)
  let ev : ℚ := ((statsB : ℚ) + (1 / 2) * (statsE : ℚ)) / (numSim : ℚ)
  (if st.currentPlayer = WHITE then 1 - ev else ev, k + numSim)

/-- `score > best_score` with `best_score` starting at `float('-inf')`
(`none`). -/
def scoreGt (s : ℚ) : Option ℚ → Bool
  | none => true
  | some b => decide (b < s)

/-- The inner `for _ in range(10)` loop of `genmove` (lines 58–63): run
`simulate` repeatedly, updating the best move and best score on a strict
improvement; the accumulator is `(best_move, best_score, rollout count)`. -/
def simBatches (numSim : Nat) (winner : Nat → Nat) (st : SimGame) (move : ℤ) :
    Nat → Option ℤ × Option ℚ × Nat → Option ℤ × Option ℚ × Nat
  | 0, acc => acc
  | n + 1, acc =>
    let r := simulate numSim winner st move acc.2.2
    if scoreGt r.1 acc.2.1 then
      simBatches numSim winner st move n (some move, some r.1, r.2)
    else
      simBatches numSim winner st move n (acc.1, acc.2.1, r.2)

/-- `SimulationPlayer.genmove(state)` (lines 46–74): for each empty point
in order, ten `simulate` batches, tracking the best single-batch score seen
so far across all moves; returns `(best_move, best_score, rollouts used)`. -/
def simGenmove (numSim : Nat) (winner : Nat → Nat) (st : SimGame) :
    Option ℤ × Option ℚ × Nat :=
  st.emptyPoints.foldl
    (fun acc move => simBatches numSim winner st move 10 acc)
    (none, none, 0)

/-- The batch scores of every candidate, flattened in evaluation order:
candidate `m`'s ten batches occupy consecutive `numSim`-rollout segments of
the stream starting at its offset. -/
def flatFrom (numSim : Nat) (winner : Nat → Nat) (st : SimGame) :
    List ℤ → Nat → List (ℤ × ℚ)
  | [], _ => []
  | m :: ms, k =>
    (List.range 10).map
      (fun (j : ℕ) => (m, (simulate numSim winner st m (k + j * numSim)).1)) ++
    flatFrom numSim winner st ms (k + 10 * numSim)

/-- The first entry of a scored list whose score is greatest — ties resolve
to the earliest entry (the spec's tie-breaking rule, stated from its
words). -/
def firstArgmax (L : List (ℤ × ℚ)) : Option ℤ :=
  (L.find? (fun p => L.all (fun q => decide (q.2 ≤ p.2)))).map Prod.fst

/-- The claim's candidate score, stated from the spec's words: black wins
plus half the draws over all of the candidate's rollouts (ten batches of
`numSimulations`), normalized by that total, complemented for White. -/
def specAggScore (numSim : Nat) (winner : Nat → Nat) (st : SimGame)
    (i : Nat) : ℚ :=
  let total := 10 * numSim
  let base := i * total
  let statsB := (List.range total).countP (fun t => winner (base + t) == BLACK)
  let statsE := (List.range total).countP (fun t => winner (base + t) == EMPTY)
  let ev : ℚ := ((statsB : ℚ) + (1 / 2) * (statsE : ℚ)) / (total : ℚ)
  if st.currentPlayer = WHITE then 1 - ev else ev

/-- The claim's returned move, stated from the spec's words: the candidate
with the highest aggregate rollout score, first in enumeration order on
ties. -/
def specAggBest (numSim : Nat) (winner : Nat → Nat) (st : SimGame) :
    Option ℤ :=
  ((List.range st.emptyPoints.length).find? (fun i =>
    (List.range st.emptyPoints.length).all (fun j =>
      decide (specAggScore numSim winner st j ≤
        specAggScore numSim winner st i)))).bind
    (fun i => st.emptyPoints[i]?)

/-- A rollout oracle: the very first rollout is a Black win, the rest of
the first candidate's rollouts are White wins, and every rollout of the
second candidate is a draw. -/
def winnersCE : Nat → Nat :=
  fun k => if k = 0 then BLACK else if k < 10 then WHITE else EMPTY

/-- Two candidate moves, Black to move. -/
def stCE : SimGame := ⟨[1, 2], BLACK⟩

/-- The linear best-tracking fold underlying `genmove`, on an explicit
`(candidate, batch score)` list. -/
def foldBest : List (ℤ × ℚ) → Option ℤ × Option ℚ → Option ℤ × Option ℚ
  | [], acc => acc
  | p :: L, acc =>
    if scoreGt p.2 acc.2 then foldBest L (some p.1, some p.2)
    else foldBest L acc

theorem foldBest_append (L1 L2 : List (ℤ × ℚ)) :
    ∀ acc, foldBest (L1 ++ L2) acc = foldBest L2 (foldBest L1 acc) := by
  induction L1 with
  | nil => intro acc; rfl
  | cons p L ih =>
    intro acc
    simp only [List.cons_append, foldBest]
    by_cases hc : scoreGt p.2 acc.2 = true
    · rw [if_pos hc, if_pos hc]
      exact ih _
    · rw [if_neg hc, if_neg hc]
      exact ih _

/-- The inner ten-batch loop is the linear fold over that candidate's batch
scores, with the rollout counter advanced by `n · numSim`. -/
theorem simBatches_eq (numSim : Nat) (winner : Nat → Nat) (st : SimGame)
    (move : ℤ) :
    ∀ (n : Nat) (bm : Option ℤ) (bs : Option ℚ) (k : Nat),
      simBatches numSim winner st move n (bm, bs, k) =
        ((foldBest ((List.range n).map (fun (j : ℕ) =>
            (move, (simulate numSim winner st move (k + j * numSim)).1)))
          (bm, bs)).1,
         (foldBest ((List.range n).map (fun (j : ℕ) =>
            (move, (simulate numSim winner st move (k + j * numSim)).1)))
          (bm, bs)).2,
         k + n * numSim) := by
  intro n
  induction n with
  | zero =>
    intro bm bs k
    simp [simBatches, foldBest]
  | succ n ih =>
    intro bm bs k
    rw [List.range_succ_eq_map]
    simp only [List.map_cons, List.map_map, Nat.zero_mul, Nat.add_zero]
    have hlist : (List.range n).map ((fun (j : ℕ) =>
        (move, (simulate numSim winner st move (k + j * numSim)).1)) ∘ Nat.succ) =
        (List.range n).map (fun (j : ℕ) =>
          (move, (simulate numSim winner st move ((k + numSim) + j * numSim)).1)) := by
      apply List.map_congr_left
      intro j hj
      exact congrArg (fun x => (move, (simulate numSim winner st move x).1))
        (by simp [Function.comp]; ring)
    rw [hlist]
    simp only [simBatches, foldBest]
    have h2 : (simulate numSim winner st move k).2 = k + numSim := rfl
    rw [h2]
    by_cases hc : scoreGt (simulate numSim winner st move k).1 bs = true
    · rw [if_pos hc, if_pos hc]
      rw [ih (some move) (some (simulate numSim winner st move k).1) (k + numSim)]
      have hcnt : k + numSim + n * numSim = k + (n + 1) * numSim := by ring
      rw [hcnt]
    · rw [if_neg hc, if_neg hc]
      rw [ih bm bs (k + numSim)]
      have hcnt : k + numSim + n * numSim = k + (n + 1) * numSim := by ring
      rw [hcnt]

/-- The whole `genmove` loop is the linear fold over the flattened batch
list. -/
theorem simGenmove_foldBest (numSim : Nat) (winner : Nat → Nat)
    (st : SimGame) :
    ∀ (ms : List ℤ) (bm : Option ℤ) (bs : Option ℚ) (k : Nat),
      ms.foldl (fun acc move => simBatches numSim winner st move 10 acc)
          (bm, bs, k) =
        ((foldBest (flatFrom numSim winner st ms k) (bm, bs)).1,
         (foldBest (flatFrom numSim winner st ms k) (bm, bs)).2,
         k + ms.length * (10 * numSim)) := by
  intro ms
  induction ms with
  | nil =>
    intro bm bs k
    simp [flatFrom, foldBest]
  | cons m ms ih =>
    intro bm bs k
    rw [List.foldl_cons, simBatches_eq numSim winner st m 10 bm bs k]
    rw [ih]
    simp only [flatFrom, foldBest_append, Prod.mk.eta, List.length_cons]
    have hcnt : k + 10 * numSim + ms.length * (10 * numSim) =
        k + (ms.length + 1) * (10 * numSim) := by ring
    rw [hcnt]

/-- `find?` only looks at the predicate's values on the list. -/
theorem find?_congr_mem {α : Type} (p q : α → Bool) :
    ∀ (l : List α), (∀ a ∈ l, p a = q a) → l.find? p = l.find? q := by
  intro l
  induction l with
  | nil => intro _; rfl
  | cons a t ih =>
    intro h
    have ha := h a (List.mem_cons_self a t)
    by_cases hq : q a = true
    · rw [List.find?_cons_of_pos _ (ha.trans hq), List.find?_cons_of_pos _ hq]
    · rw [List.find?_cons_of_neg _ (fun hc => hq (ha.symm.trans hc)),
        List.find?_cons_of_neg _ hq]
      exact ih (fun x hx => h x (List.mem_cons_of_mem a hx))

/-- The strict-improvement fold from a live best `(m, s)` returns `m` when
nothing beats `s`, else the first entry that beats `s` and is never beaten
afterwards — i.e. the first entry attaining the list maximum above `s`. -/
theorem foldBest_some :
    ∀ (L : List (ℤ × ℚ)) (m : ℤ) (s : ℚ),
      (foldBest L (some m, some s)).1 =
        if (L.all (fun q => decide (q.2 ≤ s))) = true then some m
        else (L.find? (fun p => decide (s < p.2) &&
          L.all (fun q => decide (q.2 ≤ p.2)))).map Prod.fst := by
  intro L
  induction L with
  | nil =>
    intro m s
    simp [foldBest]
  | cons p L ih =>
    intro m s
    simp only [foldBest]
    by_cases hup : scoreGt p.2 (some s) = true
    · have hs : s < p.2 := by
        unfold scoreGt at hup
        exact of_decide_eq_true hup
      rw [if_pos hup, ih p.1 p.2]
      rw [if_neg (show ¬((p :: L).all (fun q => decide (q.2 ≤ s))) = true by
        simp [List.all_cons, not_le.mpr hs])]
      by_cases hA : (L.all fun q => decide (q.2 ≤ p.2)) = true
      · rw [if_pos hA]
        have hPp : (decide (s < p.2) &&
            (p :: L).all (fun q => decide (q.2 ≤ p.2))) = true := by
          simp [List.all_cons, hs, hA]
        rw [@List.find?_cons_of_pos _ (fun x => decide (s < x.2) &&
          ((p :: L).all fun q => decide (q.2 ≤ x.2))) p L hPp]
        rfl
      · rw [if_neg hA]
        rw [@List.find?_cons_of_neg _ (fun x => decide (s < x.2) &&
          ((p :: L).all fun q => decide (q.2 ≤ x.2))) p L
          (show ¬(decide (s < p.2) &&
            (p :: L).all (fun q => decide (q.2 ≤ p.2))) = true by
          simp only [List.all_cons, Bool.and_eq_true, decide_eq_true_eq]
          rintro ⟨-, -, hLA⟩
          exact hA (by simpa using hLA))]
        apply congrArg (Option.map Prod.fst)
        apply find?_congr_mem
        intro x hx
        by_cases hLx : (L.all fun q => decide (q.2 ≤ x.2)) = true
        · by_cases hpx : p.2 ≤ x.2
          · have hlt : p.2 < x.2 := by
              rcases lt_or_eq_of_le hpx with h | h
              · exact h
              · exact absurd (show (L.all fun q => decide (q.2 ≤ p.2)) = true by
                  rw [h]; exact hLx) hA
            simp [List.all_cons, hLx, hlt, le_of_lt hlt, lt_trans hs hlt]
          · simp [List.all_cons, hLx, hpx, not_lt.mpr (le_of_lt (not_le.mp hpx))]
        · have hLxf : (L.all fun q => decide (q.2 ≤ x.2)) = false := by
            revert hLx; cases (L.all fun q => decide (q.2 ≤ x.2)) <;> simp
          simp [List.all_cons, hLxf]
    · have hps : p.2 ≤ s := by
        unfold scoreGt at hup
        exact not_lt.mp (fun hlt => hup (decide_eq_true hlt))
      rw [if_neg hup, ih m s]
      have hconsall : ((p :: L).all (fun q => decide (q.2 ≤ s))) =
          (L.all (fun q => decide (q.2 ≤ s))) := by
        simp [List.all_cons, hps]
      rw [hconsall]
      by_cases hA : (L.all fun q => decide (q.2 ≤ s)) = true
      · rw [if_pos hA, if_pos hA]
      · rw [if_neg hA, if_neg hA]
        rw [@List.find?_cons_of_neg _ (fun x => decide (s < x.2) &&
          ((p :: L).all fun q => decide (q.2 ≤ x.2))) p L
          (show ¬(decide (s < p.2) &&
            (p :: L).all (fun q => decide (q.2 ≤ p.2))) = true by
          simp [not_lt.mpr hps])]
        apply congrArg (Option.map Prod.fst)
        apply find?_congr_mem
        intro x hx
        by_cases hsx : s < x.2
        · by_cases hLx : (L.all fun q => decide (q.2 ≤ x.2)) = true
          · simp [List.all_cons, hsx, hLx, le_trans hps (le_of_lt hsx)]
          · have hLxf : (L.all fun q => decide (q.2 ≤ x.2)) = false := by
              revert hLx; cases (L.all fun q => decide (q.2 ≤ x.2)) <;> simp
            simp [List.all_cons, hLxf]
        · simp [hsx]

set_option maxHeartbeats 1000000 in
/-- The fold from the initial `(None, -inf)` state computes the first
entry attaining the maximum score. -/
theorem foldBest_firstArgmax (L : List (ℤ × ℚ)) :
    (foldBest L (none, none)).1 = firstArgmax L := by
  cases L with
  | nil => rfl
  | cons p L =>
    unfold firstArgmax
    simp only [foldBest]
    rw [if_pos (show scoreGt p.2 none = true from rfl), foldBest_some]
    by_cases hA : (L.all fun q => decide (q.2 ≤ p.2)) = true
    · rw [if_pos hA]
      have hPp : ((p :: L).all (fun q => decide (q.2 ≤ p.2))) = true := by
        simp [List.all_cons, hA]
      rw [@List.find?_cons_of_pos _ (fun x =>
        (p :: L).all fun q => decide (q.2 ≤ x.2)) p L hPp]
      rfl
    · rw [if_neg hA]
      rw [@List.find?_cons_of_neg _ (fun x =>
        (p :: L).all fun q => decide (q.2 ≤ x.2)) p L
        (show ¬((p :: L).all (fun q => decide (q.2 ≤ p.2))) = true by
        simp only [List.all_cons, Bool.and_eq_true, decide_eq_true_eq]
        rintro ⟨-, hLA⟩
        exact hA (by simpa using hLA))]
      apply congrArg (Option.map Prod.fst)
      apply find?_congr_mem
      intro x hx
      by_cases hLx : (L.all fun q => decide (q.2 ≤ x.2)) = true
      · by_cases hpx : p.2 ≤ x.2
        · have hlt : p.2 < x.2 := by
            rcases lt_or_eq_of_le hpx with h | h
            · exact h
            · exact absurd (show (L.all fun q => decide (q.2 ≤ p.2)) = true by
                rw [h]; exact hLx) hA
          simp [List.all_cons, hLx, hlt, le_of_lt hlt]
        · simp [List.all_cons, hLx, hpx, not_lt.mpr (le_of_lt (not_le.mp hpx))]
      · have hLxf : (L.all fun q => decide (q.2 ≤ x.2)) = false := by
          revert hLx; cases (L.all fun q => decide (q.2 ≤ x.2)) <;> simp
        simp [List.all_cons, hLxf]

/-- With one rollout per batch, a batch whose rollout Black wins scores 1
(Black to move). -/
theorem evalCE_B (m : ℤ) (k : Nat) (h : winnersCE k = BLACK) :
    (simulate 1 winnersCE stCE m k).1 = 1 := by
  have hr : List.range 1 = [0] := rfl
  simp only [simulate, stCE, hr, List.countP_cons, List.countP_nil,
    Nat.add_zero, h]
  norm_num [BLACK, WHITE, EMPTY]

/-- With one rollout per batch, a batch whose rollout White wins scores 0
(Black to move). -/
theorem evalCE_W (m : ℤ) (k : Nat) (h : winnersCE k = WHITE) :
    (simulate 1 winnersCE stCE m k).1 = 0 := by
  have hr : List.range 1 = [0] := rfl
  simp only [simulate, stCE, hr, List.countP_cons, List.countP_nil,
    Nat.add_zero, h]
  norm_num [BLACK, WHITE, EMPTY]

/-- With one rollout per batch, a drawn rollout scores 1/2 (Black to
move). -/
theorem evalCE_E (m : ℤ) (k : Nat) (h : winnersCE k = EMPTY) :
    (simulate 1 winnersCE stCE m k).1 = 1 / 2 := by
  have hr : List.range 1 = [0] := rfl
  simp only [simulate, stCE, hr, List.countP_cons, List.countP_nil,
    Nat.add_zero, h]
  norm_num [BLACK, WHITE, EMPTY]

/-- A best-tracking fold that never sees a strict improvement keeps its
accumulator. -/
theorem foldBest_const_skip :
    ∀ (L : List (ℤ × ℚ)) (m : ℤ) (s : ℚ),
      (∀ p ∈ L, scoreGt p.2 (some s) = false) →
      foldBest L (some m, some s) = (some m, some s) := by
  intro L
  induction L with
  | nil => intro m s _; rfl
  | cons p L ih =>
    intro m s h
    simp only [foldBest]
    rw [if_neg (by
      rw [h p (List.mem_cons_self p L)]
      simp)]
    exact ih m s (fun x hx => h x (List.mem_cons_of_mem p hx))

/-- From the initial `(None, -inf)` state, the first entry is taken and
kept if nothing after it is a strict improvement. -/
theorem foldBest_first_then_skip (L : List (ℤ × ℚ)) (a : ℤ) (v : ℚ)
    (h : ∀ x ∈ L, scoreGt x.2 (some v) = false) :
    foldBest ((a, v) :: L) (none, none) = (some a, some v) := by
  have h1 : foldBest ((a, v) :: L) (none, none) = foldBest L (some a, some v) := by
    simp only [foldBest]
    rw [if_pos (show scoreGt v none = true from rfl)]
  rw [h1]
  exact foldBest_const_skip L a v h

/-- Claim C6 (amended): `genmove` returns the candidate of the first batch
attaining the greatest single-batch score over all (candidate, batch)
pairs in evaluation order — not the candidate with the greatest aggregate
over its ten batches.  A batch's score is the claim's weighted win
fraction — `(black wins + 0.5 · draws) / numSimulations`, complemented
when the side to move is White (`simulate`) — but over one
`numSimulations`-rollout batch only, and ties (across batches and
candidates) resolve to the earliest batch. -/
theorem simulation_genmove_first_max_batch (numSim : Nat)
    (winner : Nat → Nat) (st : SimGame) :
    (simGenmove numSim winner st).1 =
      firstArgmax (flatFrom numSim winner st st.emptyPoints 0) := by
  unfold simGenmove
  rw [simGenmove_foldBest numSim winner st st.emptyPoints none none 0]
  exact foldBest_firstArgmax _

/-- Claim C6 counterexample: one rollout per batch, two candidate moves,
Black to move.  The first candidate's ten batches score 1, 0, ..., 0
(one Black win then nine White wins — aggregate 1/10); the second's score
1/2 ten times (all draws — aggregate 1/2).  The claim's aggregate argmax
is the second move, but `genmove` compares individual batch scores with a
strict greater-than against the running best, so the outlier first batch
wins and it returns the first move. -/
theorem simulation_genmove_counterexample :
    (simGenmove 1 winnersCE stCE).1 = some 1 ∧
    specAggBest 1 winnersCE stCE = some 2 ∧
    (some (1 : ℤ)) ≠ some 2 := by
  refine ⟨?_, ?_, by decide⟩
  · unfold simGenmove
    rw [simGenmove_foldBest 1 winnersCE stCE stCE.emptyPoints none none 0]
    show (foldBest (flatFrom 1 winnersCE stCE stCE.emptyPoints 0)
      (none, none)).1 = some 1
    have hpts : stCE.emptyPoints = [1, 2] := rfl
    rw [hpts]
    simp only [flatFrom, List.append_nil]
    rw [foldBest_append]
    have hclean1 : (List.range 10).map (fun (j : ℕ) =>
        ((1 : ℤ), (simulate 1 winnersCE stCE 1 (0 + j * 1)).1)) =
        ((1 : ℤ), (1 : ℚ)) :: (List.range 9).map (fun (j : ℕ) =>
          ((1 : ℤ), (simulate 1 winnersCE stCE 1 (j + 1)).1)) := by
      rw [show (10 : ℕ) = 9 + 1 from rfl, List.range_succ_eq_map]
      simp only [List.map_cons, List.map_map]
      congr 1
      rw [show (0 : ℕ) + 0 * 1 = 0 by norm_num, evalCE_B 1 0 (by decide)]
    have hclean2 : (List.range 10).map (fun (j : ℕ) =>
        ((2 : ℤ), (simulate 1 winnersCE stCE 2 (0 + 10 * 1 + j * 1)).1)) =
        (List.range 10).map (fun (j : ℕ) =>
          ((2 : ℤ), (simulate 1 winnersCE stCE 2 (10 + j)).1)) := by
      apply List.map_congr_left
      intro j hj
      exact congrArg
        (fun x => ((2 : ℤ), (simulate 1 winnersCE stCE 2 x).1)) (by omega)
    rw [hclean1, hclean2]
    rw [foldBest_first_then_skip _ 1 1 (by
      intro x hx
      obtain ⟨j, hj, rfl⟩ := List.mem_map.mp hx
      have hj9 := List.mem_range.mp hj
      show scoreGt (simulate 1 winnersCE stCE 1 (j + 1)).1 (some 1) = false
      rw [evalCE_W 1 (j + 1) (by
        unfold winnersCE
        rw [if_neg (by omega), if_pos (by omega)])]
      unfold scoreGt
      exact decide_eq_false (by norm_num))]
    rw [foldBest_const_skip _ 1 1 (by
      intro x hx
      obtain ⟨j, hj, rfl⟩ := List.mem_map.mp hx
      have hj10 := List.mem_range.mp hj
      show scoreGt (simulate 1 winnersCE stCE 2 (10 + j)).1 (some 1) = false
      rw [evalCE_E 2 (10 + j) (by
        unfold winnersCE
        rw [if_neg (by omega), if_neg (by omega)])]
      unfold scoreGt
      exact decide_eq_false (by norm_num))]
  · unfold specAggBest
    have hlen : stCE.emptyPoints.length = 2 := rfl
    rw [hlen]
    have hr2 : List.range 2 = [0, 1] := rfl
    rw [hr2]
    have hs0 : specAggScore 1 winnersCE stCE 0 = 1 / 10 := by
      have c1 : (List.range (10 * 1)).countP
          (fun t => winnersCE (0 * (10 * 1) + t) == BLACK) = 1 := by decide
      have c2 : (List.range (10 * 1)).countP
          (fun t => winnersCE (0 * (10 * 1) + t) == EMPTY) = 0 := by decide
      simp only [specAggScore]
      rw [c1, c2]
      norm_num [stCE, WHITE, BLACK]
    have hs1 : specAggScore 1 winnersCE stCE 1 = 1 / 2 := by
      have c1 : (List.range (10 * 1)).countP
          (fun t => winnersCE (1 * (10 * 1) + t) == BLACK) = 0 := by decide
      have c2 : (List.range (10 * 1)).countP
          (fun t => winnersCE (1 * (10 * 1) + t) == EMPTY) = 10 := by decide
      simp only [specAggScore]
      rw [c1, c2]
      norm_num [stCE, WHITE, BLACK]
    have hd1 : decide (specAggScore 1 winnersCE stCE 1 ≤
        specAggScore 1 winnersCE stCE 0) = false := by
      rw [hs0, hs1]
      exact decide_eq_false (by norm_num)
    have hd2 : decide (specAggScore 1 winnersCE stCE 0 ≤
        specAggScore 1 winnersCE stCE 1) = true := by
      rw [hs0, hs1]
      exact decide_eq_true (by norm_num)
    have hd3 : decide (specAggScore 1 winnersCE stCE 1 ≤
        specAggScore 1 winnersCE stCE 1) = true := decide_eq_true le_rfl
    rw [@List.find?_cons_of_neg _ (fun i => [0, 1].all (fun j =>
        decide (specAggScore 1 winnersCE stCE j ≤
          specAggScore 1 winnersCE stCE i))) 0 [1]
      (by simp [List.all_cons, hd1])]
    rw [@List.find?_cons_of_pos _ (fun i => [0, 1].all (fun j =>
        decide (specAggScore 1 winnersCE stCE j ≤
          specAggScore 1 winnersCE stCE i))) 1 []
      (by simp [List.all_cons, hd2, hd3])]
    rfl

end Ninuki
